import Mathlib

/-!
Verification development for the deepagent-coder agent core.

This file gives a shallow embedding, in Lean, of the algorithmic core of the
repository: the dual-mode tool-call extractor of
`deepagent_coder/coding_agent.py` (`_agent_invoke`), its path-resolution and
auto-mkdir steps, the memory compactor
(`deepagent_coder/utils/memory_compactor.py`), and the middleware stages
(`deepagent_claude/middleware/*.py`, `deepagent_coder/middleware/*.py`).

Python strings are modelled as Lean `String`/`List Char`; Python `json.loads`
is modelled by an executable recursive-descent parser over the float-free,
`\uXXXX`-free JSON fragment (JSON numbers are embedded as integers; inputs
containing fractions or exponents are outside the modelled fragment and the
embedded parser rejects them instead of producing a float).  Python dicts
decoded from JSON are modelled as association lists in decoding order with
last-binding lookup, which agrees with Python's duplicate-key semantics for
lookup and membership.  Exceptions are modelled with `Except`.
-/

/-- JSON values (float-free fragment).  `obj` carries its fields as an
association list in decoding order; lookup takes the last binding, matching
Python dict construction from JSON text. -/
inductive JValue : Type where
  | null : JValue
  | bool : Bool → JValue
  | num : Int → JValue
  | str : String → JValue
  | arr : List JValue → JValue
  | obj : List (String × JValue) → JValue
deriving Repr

mutual

/-- Boolean equality on JSON values (the nested induction prevents a derived
`DecidableEq`). -/
def jvBeq : JValue → JValue → Bool
  | .null, .null => true
  | .bool a, .bool b => a == b
  | .num a, .num b => a == b
  | .str a, .str b => a == b
  | .arr xs, .arr ys => jvBeqL xs ys
  | .obj xs, .obj ys => jvBeqF xs ys
  | _, _ => false

/-- Boolean equality on lists of JSON values. -/
def jvBeqL : List JValue → List JValue → Bool
  | [], [] => true
  | x :: xs, y :: ys => jvBeq x y && jvBeqL xs ys
  | _, _ => false

/-- Boolean equality on JSON object fields. -/
def jvBeqF : List (String × JValue) → List (String × JValue) → Bool
  | [], [] => true
  | (k1, v1) :: t1, (k2, v2) :: t2 => k1 == k2 && jvBeq v1 v2 && jvBeqF t1 t2
  | _, _ => false

end

mutual

theorem jvBeq_iff : ∀ a b : JValue, jvBeq a b = true ↔ a = b
  | a, b => by
    cases a <;> cases b <;> simp [jvBeq]
    case arr.arr xs ys => exact jvBeqL_iff xs ys
    case obj.obj xs ys => exact jvBeqF_iff xs ys

theorem jvBeqL_iff : ∀ xs ys : List JValue, jvBeqL xs ys = true ↔ xs = ys
  | [], [] => by simp [jvBeqL]
  | [], _ :: _ => by simp [jvBeqL]
  | _ :: _, [] => by simp [jvBeqL]
  | x :: xs, y :: ys => by
    have h1 := jvBeq_iff x y
    have h2 := jvBeqL_iff xs ys
    simp [jvBeqL, h1, h2]

theorem jvBeqF_iff :
    ∀ xs ys : List (String × JValue), jvBeqF xs ys = true ↔ xs = ys
  | [], [] => by simp [jvBeqF]
  | [], _ :: _ => by simp [jvBeqF]
  | _ :: _, [] => by simp [jvBeqF]
  | (k1, v1) :: t1, (k2, v2) :: t2 => by
    have h1 := jvBeq_iff v1 v2
    have h2 := jvBeqF_iff t1 t2
    simp [jvBeqF, h1, h2]

end

instance : DecidableEq JValue := fun a b =>
  decidable_of_iff (jvBeq a b = true) (jvBeq_iff a b)

/-- JSON insignificant whitespace, as accepted by Python `json.loads`
between tokens: space, tab, newline, carriage return. -/
def isWsChar (c : Char) : Bool :=
  c.toNat = 32 || c.toNat = 9 || c.toNat = 10 || c.toNat = 13

/-- ASCII decimal digit test (`0`-`9`). -/
def isDigitChar (c : Char) : Bool :=
  48 ≤ c.toNat && c.toNat ≤ 57

/-- Skip insignificant whitespace. -/
def skipWs (cs : List Char) : List Char := cs.dropWhile isWsChar

/-- Decode one backslash escape of a JSON string (the `\uXXXX` form is
outside the modelled fragment). -/
def escChar (e : Char) : Option Char :=
  if e = '"' then some '"'
  else if e = '\\' then some '\\'
  else if e = '/' then some '/'
  else if e = 'b' then some (Char.ofNat 8)
  else if e = 'f' then some (Char.ofNat 12)
  else if e = 'n' then some '\n'
  else if e = 'r' then some '\r'
  else if e = 't' then some '\t'
  else none

/-- Parse the body of a JSON string after the opening quote, returning the
decoded characters and the input after the closing quote.  Python `json.loads`
(strict mode) rejects raw control characters below 0x20 inside strings. -/
def parseStringBody : List Char → Option (List Char × List Char)
  | [] => none
  | c :: rest =>
    if c = '"' then some ([], rest)
    else if c = '\\' then
      match rest with
      | [] => none
      | e :: rest2 =>
        match escChar e with
        | none => none
        | some d => (parseStringBody rest2).map (fun p => (d :: p.1, p.2))
    else if c.toNat < 32 then none
    else (parseStringBody rest).map (fun p => (c :: p.1, p.2))

/-- Numeric value of an ASCII digit. -/
def digitVal (c : Char) : Nat := c.toNat - 48

/-- Decimal value of a digit string, most significant digit first. -/
def digitsToNat (ds : List Char) : Nat :=
  ds.foldl (fun a c => a * 10 + digitVal c) 0

/-- Parse an unsigned JSON integer: at least one digit, no redundant leading
zero, and not followed by a fraction or exponent (floats are outside the
modelled fragment, so the embedded parser fails on them). -/
def parseNum (cs : List Char) : Option (Nat × List Char) :=
  let ds := cs.takeWhile isDigitChar
  let rest := cs.dropWhile isDigitChar
  if ds.isEmpty then none
  else if 1 < ds.length ∧ ds.head? = some '0' then none
  else
    match rest with
    | [] => some (digitsToNat ds, [])
    | c :: _ =>
      if c = '.' ∨ c = 'e' ∨ c = 'E' then none else some (digitsToNat ds, rest)

mutual

/-- Recursive-descent JSON value parser (model of Python `json.loads` on the
embedded fragment).  `fuel` bounds the recursion; every recursive call
decreases it, and `jsonLoadsChars` below supplies enough fuel for any input
it is called on. -/
def parseValue : Nat → List Char → Option (JValue × List Char)
  | 0, _ => none
  | fuel + 1, cs =>
    match skipWs cs with
    | [] => none
    | c :: rest =>
      if c = '"' then
        (parseStringBody rest).map (fun p => (JValue.str (String.mk p.1), p.2))
      else if c = '{' then
        match skipWs rest with
        | '}' :: r => some (JValue.obj [], r)
        | _ => parseMembers fuel rest []
      else if c = '[' then
        match skipWs rest with
        | ']' :: r => some (JValue.arr [], r)
        | _ => parseElems fuel rest []
      else if c = '-' then
        (parseNum rest).map (fun p => (JValue.num (-(p.1 : Int)), p.2))
      else if isDigitChar c then
        (parseNum (c :: rest)).map (fun p => (JValue.num (p.1 : Int), p.2))
      else if c = 'n' then
        match rest with
        | 'u' :: 'l' :: 'l' :: r => some (JValue.null, r)
        | _ => none
      else if c = 't' then
        match rest with
        | 'r' :: 'u' :: 'e' :: r => some (JValue.bool true, r)
        | _ => none
      else if c = 'f' then
        match rest with
        | 'a' :: 'l' :: 's' :: 'e' :: r => some (JValue.bool false, r)
        | _ => none
      else none

/-- Parse the members of a JSON object after the opening brace (nonempty
case), accumulating decoded fields in order. -/
def parseMembers : Nat → List Char → List (String × JValue) →
    Option (JValue × List Char)
  | 0, _, _ => none
  | fuel + 1, cs, acc =>
    match skipWs cs with
    | '"' :: rest =>
      match parseStringBody rest with
      | none => none
      | some (k, r1) =>
        match skipWs r1 with
        | ':' :: r2 =>
          match parseValue fuel r2 with
          | none => none
          | some (v, r3) =>
            match skipWs r3 with
            | ',' :: r4 => parseMembers fuel r4 (acc ++ [(String.mk k, v)])
            | '}' :: r4 => some (JValue.obj (acc ++ [(String.mk k, v)]), r4)
            | _ => none
        | _ => none
    | _ => none

/-- Parse the elements of a JSON array after the opening bracket (nonempty
case). -/
def parseElems : Nat → List Char → List JValue → Option (JValue × List Char)
  | 0, _, _ => none
  | fuel + 1, cs, acc =>
    match parseValue fuel cs with
    | none => none
    | some (v, r) =>
      match skipWs r with
      | ',' :: r2 => parseElems fuel r2 (acc ++ [v])
      | ']' :: r2 => some (JValue.arr (acc ++ [v]), r2)
      | _ => none

end

/-- Model of Python `json.loads` on a character list: parse one value and
require that only whitespace follows. -/
def jsonLoadsChars (cs : List Char) : Option JValue :=
  match parseValue (2 * cs.length + 2) cs with
  | some (v, rest) => if (skipWs rest).isEmpty then some v else none
  | none => none

/-- Character of a decimal digit value (values ≥ 9 clamp to `9`; only
`d < 10` is ever used). -/
def digitCh : Nat → Char
  | 0 => '0'
  | 1 => '1'
  | 2 => '2'
  | 3 => '3'
  | 4 => '4'
  | 5 => '5'
  | 6 => '6'
  | 7 => '7'
  | 8 => '8'
  | _ => '9'

/-- Canonical decimal digit string of a natural number, most significant
digit first. -/
def natToDigits (m : Nat) : List Char :=
  if m = 0 then ['0'] else ((Nat.digits 10 m).reverse.map digitCh)

/-- Canonical serialization of a JSON integer. -/
def serInt (n : Int) : List Char :=
  if n < 0 then '-' :: natToDigits n.natAbs else natToDigits n.natAbs

/-- Serialization of one character inside a JSON string: quote and backslash
are escaped, everything else is emitted verbatim. -/
def escCharEnc (c : Char) : List Char :=
  if c = '"' then ['\\', '"']
  else if c = '\\' then ['\\', '\\']
  else [c]

/-- Serialization of the characters of a JSON string body. -/
def escList : List Char → List Char
  | [] => []
  | c :: l => escCharEnc c ++ escList l

/-- Serialization of a JSON string, including the surrounding quotes. -/
def serStrChars (s : String) : List Char :=
  '"' :: escList s.data ++ ['"']

mutual

/-- Compact canonical serialization of a JSON value.  This is the
specification-side construction "a serialized JSON object"; its output is
valid JSON text accepted by Python `json.loads` whenever the value is tame
(no control characters inside strings). -/
def serV : JValue → List Char
  | .null => "null".data
  | .bool true => "true".data
  | .bool false => "false".data
  | .num n => serInt n
  | .str s => serStrChars s
  | .arr xs => '[' :: serElemsList xs ++ [']']
  | .obj fs => '{' :: serFieldsList fs ++ ['}']

/-- Comma-separated serialization of array elements. -/
def serElemsList : List JValue → List Char
  | [] => []
  | [x] => serV x
  | x :: y :: tl => serV x ++ ',' :: serElemsList (y :: tl)

/-- Comma-separated serialization of object fields. -/
def serFieldsList : List (String × JValue) → List Char
  | [] => []
  | [(k, v)] => serStrChars k ++ ':' :: serV v
  | (k, v) :: m :: tl => serStrChars k ++ ':' :: serV v ++ ',' :: serFieldsList (m :: tl)

end

mutual

/-- Fuel bound for parsing a serialized value. -/
def jsize : JValue → Nat
  | .null => 1
  | .bool _ => 1
  | .num _ => 1
  | .str _ => 1
  | .arr xs => 1 + jsizeL xs
  | .obj fs => 1 + jsizeF fs

/-- Fuel bound for parsing serialized array elements. -/
def jsizeL : List JValue → Nat
  | [] => 1
  | x :: tl => 1 + jsize x + jsizeL tl

/-- Fuel bound for parsing serialized object fields. -/
def jsizeF : List (String × JValue) → Nat
  | [] => 1
  | (_, v) :: tl => 1 + jsize v + jsizeF tl

end

/-- A string is tame when it has no control characters below 0x20: Python
`json.loads` in strict mode rejects raw control characters inside string
literals, so tame strings serialize/parse without `\uXXXX` machinery. -/
def tameStr (s : String) : Bool := s.data.all (fun c => 32 ≤ c.toNat)

mutual

/-- A JSON value is tame when every string scalar and object key in it is
tame. -/
def tameV : JValue → Bool
  | .null => true
  | .bool _ => true
  | .num _ => true
  | .str s => tameStr s
  | .arr xs => tameL xs
  | .obj fs => tameF fs

/-- Tameness of a list of JSON values. -/
def tameL : List JValue → Bool
  | [] => true
  | x :: tl => tameV x && tameL tl

/-- Tameness of JSON object fields. -/
def tameF : List (String × JValue) → Bool
  | [] => true
  | (k, v) :: tl => tameStr k && tameV v && tameF tl

end

theorem skipWs_cons_of {c : Char} (cs : List Char) (h : isWsChar c = false) :
    skipWs (c :: cs) = c :: cs := by
  simp [skipWs, List.dropWhile_cons, h]

theorem tameStr_iff (s : String) :
    tameStr s = true ↔ ∀ c ∈ s.data, 32 ≤ c.toNat := by
  simp [tameStr, List.all_eq_true]

theorem parseStringBody_escList (l : List Char) (h : ∀ c ∈ l, 32 ≤ c.toNat)
    (rest : List Char) :
    parseStringBody (escList l ++ '"' :: rest) = some (l, rest) := by
  induction l with
  | nil =>
    rw [escList, List.nil_append, parseStringBody.eq_def]
    simp
  | cons c tl ih =>
    have hc : 32 ≤ c.toNat := h c (List.mem_cons_self c tl)
    have htl : ∀ x ∈ tl, 32 ≤ x.toNat := fun x hx => h x (List.mem_cons_of_mem _ hx)
    by_cases h1 : c = '"'
    · subst h1
      rw [escList, show escCharEnc '"' = ['\\', '"'] from rfl]
      simp only [List.cons_append, List.append_assoc, List.nil_append]
      rw [parseStringBody.eq_def]
      simp [escChar, ih htl]
    · by_cases h2 : c = '\\'
      · subst h2
        rw [escList, show escCharEnc '\\' = ['\\', '\\'] from rfl]
        simp only [List.cons_append, List.append_assoc, List.nil_append]
        rw [parseStringBody.eq_def]
        simp [escChar, ih htl]
      · have h3 : ¬ c.toNat < 32 := by omega
        rw [escList, escCharEnc, if_neg h1, if_neg h2]
        simp only [List.cons_append, List.singleton_append]
        rw [parseStringBody.eq_def]
        simp [h1, h2, h3, ih htl]

theorem digitCh_toNat {d : Nat} (h : d < 10) : (digitCh d).toNat = 48 + d := by
  interval_cases d <;> rfl

theorem isDigitChar_digitCh {d : Nat} (h : d < 10) :
    isDigitChar (digitCh d) = true := by
  interval_cases d <;> rfl

theorem digitVal_digitCh {d : Nat} (h : d < 10) : digitVal (digitCh d) = d := by
  interval_cases d <;> rfl

theorem digitCh_ne_zero {d : Nat} (h : d < 10) (h0 : d ≠ 0) : digitCh d ≠ '0' := by
  interval_cases d <;> simp_all <;> decide

theorem foldl_digits_eq (L : List Nat) (hL : ∀ d ∈ L, d < 10) (a0 : Nat) :
    ((L.reverse.map digitCh).foldl (fun a c => a * 10 + digitVal c) a0)
      = a0 * 10 ^ L.length + Nat.ofDigits 10 L := by
  induction L generalizing a0 with
  | nil => simp [Nat.ofDigits]
  | cons d L ih =>
    have hd : d < 10 := hL d (List.mem_cons_self d L)
    have hL2 : ∀ x ∈ L, x < 10 := fun x hx => hL x (List.mem_cons_of_mem _ hx)
    rw [List.reverse_cons, List.map_append, List.foldl_append, ih hL2 a0]
    simp [digitVal_digitCh hd, Nat.ofDigits_cons]
    ring

theorem digitsToNat_natToDigits (m : Nat) : digitsToNat (natToDigits m) = m := by
  by_cases h : m = 0
  · subst h; rfl
  · unfold natToDigits
    rw [if_neg h]
    unfold digitsToNat
    have hlt : ∀ d ∈ Nat.digits 10 m, d < 10 :=
      fun d hd => Nat.digits_lt_base (by norm_num) hd
    rw [foldl_digits_eq (Nat.digits 10 m) hlt 0]
    simp [Nat.ofDigits_digits]

theorem natToDigits_all_digits (m : Nat) :
    ∀ c ∈ natToDigits m, isDigitChar c = true := by
  intro c hc
  unfold natToDigits at hc
  by_cases h : m = 0
  · rw [if_pos h] at hc
    simp at hc
    subst hc; decide
  · rw [if_neg h] at hc
    obtain ⟨d, hd, rfl⟩ := List.mem_map.mp hc
    have : d ∈ Nat.digits 10 m := List.mem_reverse.mp hd
    exact isDigitChar_digitCh (Nat.digits_lt_base (by norm_num) this)

theorem natToDigits_ne_nil (m : Nat) : natToDigits m ≠ [] := by
  unfold natToDigits
  by_cases h : m = 0
  · simp [h]
  · rw [if_neg h]
    simp [Nat.digits_ne_nil_iff_ne_zero.mpr h]

theorem natToDigits_head_ne_zero (m : Nat) (h : m ≠ 0) :
    (natToDigits m).head? ≠ some '0' := by
  unfold natToDigits
  rw [if_neg h]
  have hne : Nat.digits 10 m ≠ [] := Nat.digits_ne_nil_iff_ne_zero.mpr h
  have hd : (Nat.digits 10 m).getLast hne < 10 :=
    Nat.digits_lt_base (by norm_num) (List.getLast_mem hne)
  have h0 : (Nat.digits 10 m).getLast hne ≠ 0 :=
    Nat.getLast_digit_ne_zero 10 h
  intro hcon
  rw [List.head?_map, List.head?_reverse, List.getLast?_eq_getLast _ hne] at hcon
  simp only [Option.map_some'] at hcon
  exact digitCh_ne_zero hd h0 (Option.some.inj hcon)

/-- The character after a serialized number must not extend the numeral:
whenever a serialized value is followed by `rest`, `rest` must not begin with
a digit, a dot, or an exponent marker.  Every separator produced by the
serializer (`,`, `:`, `]`, `\x7d`, end of input) satisfies this. -/
def numGuard : List Char → Prop
  | [] => True
  | c :: _ => isDigitChar c = false ∧ c ≠ '.' ∧ c ≠ 'e' ∧ c ≠ 'E'

theorem numGuard_of {c : Char}
    (h1 : isDigitChar c = false) (h2 : c ≠ '.') (h3 : c ≠ 'e') (h4 : c ≠ 'E')
    (rest : List Char) : numGuard (c :: rest) := ⟨h1, h2, h3, h4⟩

theorem takeWhile_all_append (p : Char → Bool) (l r : List Char)
    (h : ∀ c ∈ l, p c = true) (hr : ∀ c, r.head? = some c → p c = false) :
    (l ++ r).takeWhile p = l := by
  induction l with
  | nil =>
    cases r with
    | nil => rfl
    | cons c tl => simp [List.takeWhile_cons, hr c rfl]
  | cons c tl ih =>
    have hc := h c (List.mem_cons_self c tl)
    simp [List.takeWhile_cons, hc,
      ih (fun x hx => h x (List.mem_cons_of_mem _ hx))]

theorem dropWhile_all_append (p : Char → Bool) (l r : List Char)
    (h : ∀ c ∈ l, p c = true) (hr : ∀ c, r.head? = some c → p c = false) :
    (l ++ r).dropWhile p = r := by
  induction l with
  | nil =>
    cases r with
    | nil => rfl
    | cons c tl => simp [List.dropWhile_cons, hr c rfl]
  | cons c tl ih =>
    have hc := h c (List.mem_cons_self c tl)
    simp [List.dropWhile_cons, hc,
      ih (fun x hx => h x (List.mem_cons_of_mem _ hx))]

theorem parseNum_natToDigits (m : Nat) (rest : List Char) (hg : numGuard rest) :
    parseNum (natToDigits m ++ rest) = some (m, rest) := by
  have hdig := natToDigits_all_digits m
  have hr : ∀ c, rest.head? = some c → isDigitChar c = false := by
    intro c hc
    cases rest with
    | nil => simp at hc
    | cons c2 tl =>
      obtain ⟨h1, _, _, _⟩ := hg
      cases hc
      exact h1
  unfold parseNum
  rw [takeWhile_all_append _ _ _ hdig hr, dropWhile_all_append _ _ _ hdig hr]
  rw [if_neg (by simp [natToDigits_ne_nil m])]
  have hlead : ¬ (1 < (natToDigits m).length ∧ (natToDigits m).head? = some '0') := by
    rintro ⟨hlen, hhead⟩
    by_cases h : m = 0
    · rw [h] at hlen
      simp [natToDigits] at hlen
    · exact natToDigits_head_ne_zero m h hhead
  rw [if_neg hlead]
  cases rest with
  | nil => rw [digitsToNat_natToDigits]
  | cons c tl =>
    obtain ⟨h1, h2, h3, h4⟩ := hg
    simp [h2, h3, h4, digitsToNat_natToDigits]

theorem digit_ne_of_toNat {c : Char} (hc : isDigitChar c = true) (d : Char)
    (hd : ¬ (48 ≤ d.toNat ∧ d.toNat ≤ 57)) : c ≠ d := by
  intro heq
  subst heq
  simp [isDigitChar] at hc
  omega

theorem digit_not_ws {c : Char} (hc : isDigitChar c = true) : isWsChar c = false := by
  simp [isDigitChar] at hc
  simp [isWsChar]
  omega

theorem parseValue_succ (fuel : Nat) (cs : List Char) :
    parseValue (fuel + 1) cs =
      match skipWs cs with
      | [] => none
      | c :: rest =>
        if c = '"' then
          (parseStringBody rest).map (fun p => (JValue.str (String.mk p.1), p.2))
        else if c = '{' then
          match skipWs rest with
          | '}' :: r => some (JValue.obj [], r)
          | _ => parseMembers fuel rest []
        else if c = '[' then
          match skipWs rest with
          | ']' :: r => some (JValue.arr [], r)
          | _ => parseElems fuel rest []
        else if c = '-' then
          (parseNum rest).map (fun p => (JValue.num (-(p.1 : Int)), p.2))
        else if isDigitChar c then
          (parseNum (c :: rest)).map (fun p => (JValue.num (p.1 : Int), p.2))
        else if c = 'n' then
          match rest with
          | 'u' :: 'l' :: 'l' :: r => some (JValue.null, r)
          | _ => none
        else if c = 't' then
          match rest with
          | 'r' :: 'u' :: 'e' :: r => some (JValue.bool true, r)
          | _ => none
        else if c = 'f' then
          match rest with
          | 'a' :: 'l' :: 's' :: 'e' :: r => some (JValue.bool false, r)
          | _ => none
        else none := rfl

theorem parseMembers_succ (fuel : Nat) (cs : List Char)
    (acc : List (String × JValue)) :
    parseMembers (fuel + 1) cs acc =
      match skipWs cs with
      | '"' :: rest =>
        match parseStringBody rest with
        | none => none
        | some (k, r1) =>
          match skipWs r1 with
          | ':' :: r2 =>
            match parseValue fuel r2 with
            | none => none
            | some (v, r3) =>
              match skipWs r3 with
              | ',' :: r4 => parseMembers fuel r4 (acc ++ [(String.mk k, v)])
              | '}' :: r4 => some (JValue.obj (acc ++ [(String.mk k, v)]), r4)
              | _ => none
          | _ => none
      | _ => none := rfl

theorem parseElems_succ (fuel : Nat) (cs : List Char) (acc : List JValue) :
    parseElems (fuel + 1) cs acc =
      match parseValue fuel cs with
      | none => none
      | some (v, r) =>
        match skipWs r with
        | ',' :: r2 => parseElems fuel r2 (acc ++ [v])
        | ']' :: r2 => some (JValue.arr (acc ++ [v]), r2)
        | _ => none := rfl

theorem string_mk_data (s : String) : String.mk s.data = s := by
  obtain ⟨d⟩ := s
  rfl

theorem jsize_pos (v : JValue) : 1 ≤ jsize v := by
  cases v <;> simp [jsize]

theorem jsizeL_pos (xs : List JValue) : 1 ≤ jsizeL xs := by
  cases xs with
  | nil => simp [jsizeL]
  | cons x tl => simp only [jsizeL]; omega

theorem jsizeF_pos (fs : List (String × JValue)) : 1 ≤ jsizeF fs := by
  cases fs with
  | nil => simp [jsizeF]
  | cons p tl =>
    obtain ⟨k, v⟩ := p
    simp only [jsizeF]
    omega

theorem serV_head (v : JValue) :
    ∃ c tail, serV v = c :: tail ∧ isWsChar c = false ∧ c ≠ ']' ∧ c ≠ '}' := by
  cases v with
  | null => exact ⟨'n', _, rfl, by decide, by decide, by decide⟩
  | bool b =>
    cases b
    · exact ⟨'f', _, rfl, by decide, by decide, by decide⟩
    · exact ⟨'t', _, rfl, by decide, by decide, by decide⟩
  | num n =>
    by_cases h : n < 0
    · exact ⟨'-', natToDigits n.natAbs, by simp [serV, serInt, h], by decide,
        by decide, by decide⟩
    · obtain ⟨d, ds, hds⟩ :=
        List.exists_cons_of_ne_nil (natToDigits_ne_nil n.natAbs)
      have hd : isDigitChar d = true :=
        natToDigits_all_digits _ d (by rw [hds]; exact List.mem_cons_self d ds)
      refine ⟨d, ds, ?_, digit_not_ws hd, digit_ne_of_toNat hd ']' (by decide),
        digit_ne_of_toNat hd '}' (by decide)⟩
      simp [serV, serInt, h, hds]
  | str s => exact ⟨'"', _, rfl, by decide, by decide, by decide⟩
  | arr xs => exact ⟨'[', _, rfl, by decide, by decide, by decide⟩
  | obj fs => exact ⟨'{', _, rfl, by decide, by decide, by decide⟩

theorem serElemsList_cons (x : JValue) (tl : List JValue) :
    ∃ t, serElemsList (x :: tl) = serV x ++ t := by
  cases tl with
  | nil => exact ⟨[], by simp [serElemsList]⟩
  | cons y tl2 => exact ⟨',' :: serElemsList (y :: tl2), by simp [serElemsList]⟩

theorem serFieldsList_cons (k : String) (v : JValue)
    (tl : List (String × JValue)) :
    ∃ t, serFieldsList ((k, v) :: tl) = '"' :: t := by
  cases tl with
  | nil =>
    exact ⟨escList k.data ++ '"' :: ':' :: serV v,
      by simp [serFieldsList, serStrChars]⟩
  | cons m tl2 =>
    exact ⟨escList k.data ++ '"' :: ':' :: (serV v ++ ',' :: serFieldsList (m :: tl2)),
      by simp [serFieldsList, serStrChars]⟩

theorem parseValue_succ_lbrack (fuel : Nat) (rest0 : List Char) :
    parseValue (fuel + 1) ('[' :: rest0) =
      match skipWs rest0 with
      | ']' :: r => some (JValue.arr [], r)
      | _ => parseElems fuel rest0 [] := rfl

theorem parseValue_succ_lbrace (fuel : Nat) (rest0 : List Char) :
    parseValue (fuel + 1) ('{' :: rest0) =
      match skipWs rest0 with
      | '}' :: r => some (JValue.obj [], r)
      | _ => parseMembers fuel rest0 [] := rfl

theorem parseMembers_succ_quote (fuel : Nat) (rest : List Char)
    (acc : List (String × JValue)) :
    parseMembers (fuel + 1) ('"' :: rest) acc =
      match parseStringBody rest with
      | none => none
      | some (k, r1) =>
        match skipWs r1 with
        | ':' :: r2 =>
          match parseValue fuel r2 with
          | none => none
          | some (v, r3) =>
            match skipWs r3 with
            | ',' :: r4 => parseMembers fuel r4 (acc ++ [(String.mk k, v)])
            | '}' :: r4 => some (JValue.obj (acc ++ [(String.mk k, v)]), r4)
            | _ => none
        | _ => none := rfl

mutual

theorem parse_serV : ∀ (v : JValue), tameV v = true →
    ∀ (fuel : Nat) (rest : List Char), jsize v ≤ fuel → numGuard rest →
    parseValue fuel (serV v ++ rest) = some (v, rest)
  | .null, _, fuel, rest, hf, _ => by
    cases fuel with
    | zero => exact absurd hf (by simp [jsize])
    | succ f => rfl
  | .bool true, _, fuel, rest, hf, _ => by
    cases fuel with
    | zero => exact absurd hf (by simp [jsize])
    | succ f => rfl
  | .bool false, _, fuel, rest, hf, _ => by
    cases fuel with
    | zero => exact absurd hf (by simp [jsize])
    | succ f => rfl
  | .num n, _, fuel, rest, hf, hg => by
    cases fuel with
    | zero => exact absurd hf (by simp [jsize])
    | succ f =>
      by_cases hneg : n < 0
      · rw [show serV (JValue.num n) ++ rest
              = '-' :: (natToDigits n.natAbs ++ rest) from by
            simp [serV, serInt, hneg]]
        rw [show parseValue (f + 1) ('-' :: (natToDigits n.natAbs ++ rest))
              = (parseNum (natToDigits n.natAbs ++ rest)).map
                  (fun p => (JValue.num (-(p.1 : Int)), p.2)) from rfl]
        rw [parseNum_natToDigits n.natAbs rest hg]
        simp only [Option.map_some']
        rw [show (-(n.natAbs : Int)) = n from by omega]
      · obtain ⟨d, ds, hds⟩ :=
          List.exists_cons_of_ne_nil (natToDigits_ne_nil n.natAbs)
        have hd : isDigitChar d = true :=
          natToDigits_all_digits _ d (by rw [hds]; exact List.mem_cons_self d ds)
        have e1 : ¬ d = '"' := digit_ne_of_toNat hd '"' (by decide)
        have e2 : ¬ d = '{' := digit_ne_of_toNat hd '{' (by decide)
        have e3 : ¬ d = '[' := digit_ne_of_toNat hd '[' (by decide)
        have e4 : ¬ d = '-' := digit_ne_of_toNat hd '-' (by decide)
        rw [show serV (JValue.num n) ++ rest = natToDigits n.natAbs ++ rest from by
          simp [serV, serInt, hneg]]
        rw [hds, List.cons_append, parseValue_succ,
          skipWs_cons_of _ (digit_not_ws hd)]
        simp only [e1, e2, e3, e4, hd, eq_self_iff_true, reduceIte,
          ite_true, ite_false, if_true, if_false]
        rw [show d :: (ds ++ rest) = natToDigits n.natAbs ++ rest from by
          rw [hds, List.cons_append]]
        rw [parseNum_natToDigits n.natAbs rest hg]
        simp only [Option.map_some']
        rw [show ((n.natAbs : Int)) = n from by omega]
  | .str s, ht, fuel, rest, hf, _ => by
    cases fuel with
    | zero => exact absurd hf (by simp [jsize])
    | succ f =>
      have hts : ∀ c ∈ s.data, 32 ≤ c.toNat := (tameStr_iff s).mp (by
        simpa [tameV] using ht)
      rw [show serV (JValue.str s) ++ rest
            = '"' :: (escList s.data ++ '"' :: rest) from by
          simp [serV, serStrChars]]
      rw [show parseValue (f + 1) ('"' :: (escList s.data ++ '"' :: rest))
            = (parseStringBody (escList s.data ++ '"' :: rest)).map
                (fun p => (JValue.str (String.mk p.1), p.2)) from rfl]
      rw [parseStringBody_escList s.data hts rest]
      simp only [Option.map_some', string_mk_data]
  | .arr [], _, fuel, rest, hf, _ => by
    cases fuel with
    | zero => exact absurd hf (by simp [jsize])
    | succ f => rfl
  | .arr (x :: tl), ht, fuel, rest, hf, _ => by
    cases fuel with
    | zero => exact absurd hf (by simp [jsize])
    | succ f =>
      rw [show serV (JValue.arr (x :: tl)) ++ rest
            = '[' :: (serElemsList (x :: tl) ++ ']' :: rest) from by
          simp [serV]]
      rw [parseValue_succ_lbrack]
      obtain ⟨c0, tail0, hser, hws, hne1, _⟩ := serV_head x
      obtain ⟨t, hsel⟩ := serElemsList_cons x tl
      have hshape : serElemsList (x :: tl) ++ ']' :: rest
          = c0 :: (tail0 ++ (t ++ ']' :: rest)) := by
        rw [hsel, hser]; simp
      rw [hshape, skipWs_cons_of _ hws, ← hshape]
      split
      · next r heq =>
        rw [hshape] at heq
        exact absurd (List.cons.inj heq).1 hne1
      · next =>
        have := parse_serElems (x :: tl) (by simpa [tameV] using ht)
          (by simp) f rest [] (by simp [jsize] at hf; omega)
        simpa using this
  | .obj [], _, fuel, rest, hf, _ => by
    cases fuel with
    | zero => exact absurd hf (by simp [jsize])
    | succ f => rfl
  | .obj ((k, v) :: tl), ht, fuel, rest, hf, _ => by
    cases fuel with
    | zero => exact absurd hf (by simp [jsize])
    | succ f =>
      rw [show serV (JValue.obj ((k, v) :: tl)) ++ rest
            = '{' :: (serFieldsList ((k, v) :: tl) ++ '}' :: rest) from by
          simp [serV]]
      rw [parseValue_succ_lbrace]
      obtain ⟨t, hsel⟩ := serFieldsList_cons k v tl
      have hshape : serFieldsList ((k, v) :: tl) ++ '}' :: rest
          = '"' :: (t ++ '}' :: rest) := by
        rw [hsel]; simp
      rw [hshape, skipWs_cons_of _ (by decide), ← hshape]
      split
      · next r heq =>
        rw [hshape] at heq
        exact absurd (List.cons.inj heq).1 (by decide)
      · next =>
        have := parse_serFields ((k, v) :: tl) (by simpa [tameV] using ht)
          (by simp) f rest [] (by simp [jsize] at hf; omega)
        simpa using this

theorem parse_serElems : ∀ (xs : List JValue), tameL xs = true → xs ≠ [] →
    ∀ (fuel : Nat) (rest : List Char) (acc : List JValue), jsizeL xs ≤ fuel →
    parseElems fuel (serElemsList xs ++ ']' :: rest) acc
      = some (JValue.arr (acc ++ xs), rest)
  | [], _, hne, _, _, _, _ => absurd rfl hne
  | [x], ht, _, fuel, rest, acc, hf => by
    cases fuel with
    | zero => exact absurd hf (by have h := jsizeL_pos [x]; omega)
    | succ f =>
      have hx : tameV x = true := by simpa [tameL] using ht
      rw [show serElemsList [x] = serV x from rfl, parseElems_succ,
        parse_serV x hx f (']' :: rest) (by simp [jsizeL] at hf; omega)
          (numGuard_of (by decide) (by decide) (by decide) (by decide) rest)]
      rfl
  | x :: y :: tl, ht, _, fuel, rest, acc, hf => by
    cases fuel with
    | zero => exact absurd hf (by have h := jsizeL_pos (x :: y :: tl); omega)
    | succ f =>
      have hx : tameV x = true := by
        simp [tameL] at ht; exact ht.1
      have hyt : tameL (y :: tl) = true := by
        simp [tameL] at ht ⊢; exact ⟨ht.2.1, ht.2.2⟩
      rw [show serElemsList (x :: y :: tl) ++ ']' :: rest
            = serV x ++ (',' :: (serElemsList (y :: tl) ++ ']' :: rest)) from by
          simp [serElemsList]]
      rw [parseElems_succ,
        parse_serV x hx f (',' :: (serElemsList (y :: tl) ++ ']' :: rest))
          (by simp [jsizeL] at hf; omega)
          (numGuard_of (by decide) (by decide) (by decide) (by decide) _)]
      show parseElems f (serElemsList (y :: tl) ++ ']' :: rest) (acc ++ [x])
          = some (JValue.arr (acc ++ (x :: y :: tl)), rest)
      rw [parse_serElems (y :: tl) hyt (by simp) f rest (acc ++ [x])
        (by simp [jsizeL] at hf ⊢; omega)]
      simp

theorem parse_serFields : ∀ (fs : List (String × JValue)), tameF fs = true →
    fs ≠ [] →
    ∀ (fuel : Nat) (rest : List Char) (acc : List (String × JValue)),
    jsizeF fs ≤ fuel →
    parseMembers fuel (serFieldsList fs ++ '}' :: rest) acc
      = some (JValue.obj (acc ++ fs), rest)
  | [], _, hne, _, _, _, _ => absurd rfl hne
  | [(k, v)], ht, _, fuel, rest, acc, hf => by
    cases fuel with
    | zero => exact absurd hf (by have h := jsizeF_pos [(k, v)]; omega)
    | succ f =>
      have hk : ∀ c ∈ k.data, 32 ≤ c.toNat := (tameStr_iff k).mp (by
        simp [tameF] at ht; exact ht.1)
      have hv : tameV v = true := by
        simp [tameF] at ht; exact ht.2
      rw [show serFieldsList [(k, v)] ++ '}' :: rest
            = '"' :: (escList k.data ++ '"' :: (':' :: (serV v ++ '}' :: rest)))
          from by simp [serFieldsList, serStrChars]]
      rw [parseMembers_succ_quote,
        parseStringBody_escList k.data hk (':' :: (serV v ++ '}' :: rest))]
      show (match parseValue f (serV v ++ '}' :: rest) with
            | none => none
            | some (v2, r3) =>
              match skipWs r3 with
              | ',' :: r4 => parseMembers f r4 (acc ++ [(String.mk k.data, v2)])
              | '}' :: r4 =>
                some (JValue.obj (acc ++ [(String.mk k.data, v2)]), r4)
              | _ => none)
          = some (JValue.obj (acc ++ [(k, v)]), rest)
      rw [parse_serV v hv f ('}' :: rest) (by simp [jsizeF] at hf; omega)
        (numGuard_of (by decide) (by decide) (by decide) (by decide) rest)]
      show some (JValue.obj (acc ++ [(String.mk k.data, v)]), rest)
          = some (JValue.obj (acc ++ [(k, v)]), rest)
      rw [string_mk_data]
  | (k, v) :: m :: tl, ht, _, fuel, rest, acc, hf => by
    cases fuel with
    | zero => exact absurd hf (by have h := jsizeF_pos ((k, v) :: m :: tl); omega)
    | succ f =>
      have hk : ∀ c ∈ k.data, 32 ≤ c.toNat := (tameStr_iff k).mp (by
        simp [tameF] at ht; exact ht.1.1)
      have hv : tameV v = true := by
        simp [tameF] at ht; exact ht.1.2
      have hmt : tameF (m :: tl) = true := by
        simp [tameF] at ht ⊢
        exact ht.2
      rw [show serFieldsList ((k, v) :: m :: tl) ++ '}' :: rest
            = '"' :: (escList k.data ++ '"' :: (':' :: (serV v
                ++ ',' :: (serFieldsList (m :: tl) ++ '}' :: rest))))
          from by simp [serFieldsList, serStrChars]]
      rw [parseMembers_succ_quote,
        parseStringBody_escList k.data hk
          (':' :: (serV v ++ ',' :: (serFieldsList (m :: tl) ++ '}' :: rest)))]
      show (match parseValue f
              (serV v ++ ',' :: (serFieldsList (m :: tl) ++ '}' :: rest)) with
            | none => none
            | some (v2, r3) =>
              match skipWs r3 with
              | ',' :: r4 => parseMembers f r4 (acc ++ [(String.mk k.data, v2)])
              | '}' :: r4 =>
                some (JValue.obj (acc ++ [(String.mk k.data, v2)]), r4)
              | _ => none)
          = some (JValue.obj (acc ++ ((k, v) :: m :: tl)), rest)
      rw [parse_serV v hv f
        (',' :: (serFieldsList (m :: tl) ++ '}' :: rest))
        (by simp [jsizeF] at hf; omega)
        (numGuard_of (by decide) (by decide) (by decide) (by decide) _)]
      show parseMembers f (serFieldsList (m :: tl) ++ '}' :: rest)
            (acc ++ [(String.mk k.data, v)])
          = some (JValue.obj (acc ++ ((k, v) :: m :: tl)), rest)
      rw [parse_serFields (m :: tl) hmt (by simp) f rest
        (acc ++ [(String.mk k.data, v)]) (by simp [jsizeF] at hf ⊢; omega)]
      simp [string_mk_data]

end

/-- Characters stripped by Python `str.strip()` (ASCII fragment: space, tab,
newline, carriage return, vertical tab, form feed). -/
def isPyWsChar (c : Char) : Bool :=
  c.toNat = 32 || c.toNat = 9 || c.toNat = 10 || c.toNat = 13 ||
  c.toNat = 11 || c.toNat = 12

/-- Model of Python `str.strip()` on a character list. -/
def pyStripChars (cs : List Char) : List Char :=
  ((cs.dropWhile isPyWsChar).reverse.dropWhile isPyWsChar).reverse

/-- Python `key in dict` on a decoded JSON object. -/
def hasKeyF (fs : List (String × JValue)) (k : String) : Bool :=
  fs.any (fun p => p.1 == k)

/-- Python `dict[key]` on a decoded JSON object: the last binding wins,
matching duplicate-key decoding. -/
def getKeyF (fs : List (String × JValue)) (k : String) : Option JValue :=
  fs.foldl (fun acc p => if p.1 == k then some p.2 else acc) none

/-- Candidate normalization of the extractor
(`coding_agent.py`, `_agent_invoke`, Branch B): a decoded object is kept when
it has a `name` key; `item["arguments"] = item["parameters"]` runs when
`parameters` is present and `arguments` absent (a fresh dict key is appended
at the end); the result is kept only when `arguments` is then present. -/
def normalizeCand (fs : List (String × JValue)) :
    Option (List (String × JValue)) :=
  if hasKeyF fs "name" then
    let fs2 :=
      if hasKeyF fs "parameters" ∧ ¬ hasKeyF fs "arguments" then
        fs ++ [("arguments", (getKeyF fs "parameters").getD JValue.null)]
      else fs
    if hasKeyF fs2 "arguments" then some fs2 else none
  else none

/-- Strategy 1 of the extractor: parse the whole stripped text as JSON; keep
well-formed tool-call objects from a top-level array (in order) or a single
top-level object.  Parse failure and non-call values yield no candidates
(Python falls through to strategy 2 exactly when the candidate list is
empty, so the parse-failed and parsed-but-empty outcomes coincide). -/
def strategy1 (content : String) : List (List (String × JValue)) :=
  match jsonLoadsChars (pyStripChars content.data) with
  | some (JValue.arr items) =>
    items.filterMap (fun it =>
      match it with
      | JValue.obj fs => normalizeCand fs
      | _ => none)
  | some (JValue.obj fs) => (normalizeCand fs).toList
  | _ => []

/-- One step of the brace-balanced scan (strategy 2 of the extractor),
faithful to the Python loop: a pending backslash escape skips the next
character entirely; a backslash arms the escape; a quote toggles string
mode; outside string mode braces are counted, and the scan stops when the
count returns to zero.  Returns the number of characters consumed up to and
including the matching close brace, or `none` if the input ends first. -/
def innerScan : List Char → Bool → Bool → Int → Nat → Option Nat
  | [], _, _, _, _ => none
  | c :: cs, inStr, esc, depth, pos =>
    if esc then innerScan cs inStr false depth (pos + 1)
    else if c = '\\' then innerScan cs inStr true depth (pos + 1)
    else
      let inStr2 := if c = '"' then !inStr else inStr
      if inStr2 then innerScan cs inStr2 false depth (pos + 1)
      else if c = '{' then innerScan cs inStr2 false (depth + 1) (pos + 1)
      else if c = '}' then
        if depth = 1 then some (pos + 1)
        else innerScan cs inStr2 false (depth - 1) (pos + 1)
      else innerScan cs inStr2 false depth (pos + 1)

theorem innerScan_pos :
    ∀ (cs : List Char) (inStr esc : Bool) (depth : Int) (pos n : Nat),
    innerScan cs inStr esc depth pos = some n → pos < n := by
  intro cs
  induction cs with
  | nil => intro _ _ _ _ _ h; exact absurd h (by simp [innerScan])
  | cons c tl ih =>
    intro inStr esc depth pos n h
    rw [innerScan.eq_def] at h
    simp only at h
    repeat' split at h
    all_goals
      first
        | exact Nat.lt_of_succ_lt (ih _ _ _ _ _ h)
        | (cases h; omega)

/-- Strategy 2 of the extractor: scan the text left to right; at each `{`
run the brace-balanced inner scan; on balance, the candidate substring is
parsed and kept when it normalizes to a tool call, and scanning resumes
immediately after the span (the source sets `i = j` then `i += 1`); on
failure to balance, scanning resumes at the next character.  The recursive
call uses `tl.drop (n - 1)`, which equals the source's resumption point
`(c :: tl).drop n` since the inner scan always consumes at least one
character. -/
def scanExtract (cs : List Char) : List (List (String × JValue)) :=
  match cs with
  | [] => []
  | c :: tl =>
    if c = '{' then
      match innerScan (c :: tl) false false 0 0 with
      | some n =>
        let cand := (c :: tl).take n
        let found :=
          match jsonLoadsChars cand with
          | some (JValue.obj fs) => (normalizeCand fs).toList
          | _ => []
        found ++ scanExtract (tl.drop (n - 1))
      | none => scanExtract tl
    else scanExtract tl
termination_by cs.length
decreasing_by
  all_goals simp_wf
  all_goals omega

/-- The dual-mode tool-call extractor of Branch B of `_agent_invoke`:
strategy 1 on the whole text, falling back to the brace-balanced scan when
strategy 1 produced no candidates. -/
def extractToolCalls (content : String) : List (List (String × JValue)) :=
  let s1 := strategy1 content
  if s1.isEmpty then scanExtract content.data else s1

theorem innerScan_cons_plain {c : Char} (h1 : c ≠ '"') (h2 : c ≠ '\\')
    (h3 : c ≠ '{') (h4 : c ≠ '}') (cs : List Char) (d : Int) (pos : Nat) :
    innerScan (c :: cs) false false d pos
      = innerScan cs false false d (pos + 1) := by
  rw [innerScan.eq_def]
  simp [h1, h2, h3, h4]

theorem innerScan_cons_lbrace (cs : List Char) (d : Int) (pos : Nat) :
    innerScan ('{' :: cs) false false d pos
      = innerScan cs false false (d + 1) (pos + 1) := by
  rw [innerScan.eq_def]
  simp

theorem innerScan_cons_rbrace_deep (cs : List Char) (d : Int) (pos : Nat)
    (h : ¬ d = 1) :
    innerScan ('}' :: cs) false false d pos
      = innerScan cs false false (d - 1) (pos + 1) := by
  rw [innerScan.eq_def]
  simp [h]

theorem innerScan_cons_rbrace_one (cs : List Char) (pos : Nat) :
    innerScan ('}' :: cs) false false 1 pos = some (pos + 1) := by
  rw [innerScan.eq_def]
  simp

/-- Characters that the scanner treats as inert outside strings. -/
def scanPlain (c : Char) : Prop := c ≠ '"' ∧ c ≠ '\\' ∧ c ≠ '{' ∧ c ≠ '}'

theorem innerScan_append_plain (pl : List Char)
    (hpl : ∀ c ∈ pl, scanPlain c) (cs : List Char) (d : Int) (pos : Nat) :
    innerScan (pl ++ cs) false false d pos
      = innerScan cs false false d (pos + pl.length) := by
  induction pl generalizing pos with
  | nil => simp
  | cons c tl ih =>
    obtain ⟨h1, h2, h3, h4⟩ := hpl c (List.mem_cons_self c tl)
    rw [List.cons_append, innerScan_cons_plain h1 h2 h3 h4,
      ih (fun x hx => hpl x (List.mem_cons_of_mem _ hx)) (pos + 1)]
    congr 1
    simp
    omega

theorem innerScan_escList_inside (l : List Char) (cs : List Char) (d : Int)
    (pos : Nat) :
    innerScan (escList l ++ cs) true false d pos
      = innerScan cs true false d (pos + (escList l).length) := by
  induction l generalizing pos with
  | nil => simp [escList]
  | cons c tl ih =>
    by_cases hc : c = '"'
    · subst hc
      rw [escList, show escCharEnc '"' = ['\\', '"'] from rfl]
      rw [show (['\\', '"'] ++ escList tl) ++ cs
            = '\\' :: '"' :: (escList tl ++ cs) from by simp]
      rw [show innerScan ('\\' :: '"' :: (escList tl ++ cs)) true false d pos
            = innerScan ('"' :: (escList tl ++ cs)) true true d (pos + 1) from by
          rw [innerScan.eq_def]; simp]
      rw [show innerScan ('"' :: (escList tl ++ cs)) true true d (pos + 1)
            = innerScan (escList tl ++ cs) true false d (pos + 2) from by
          rw [innerScan.eq_def]; simp]
      rw [ih (pos + 2)]
      congr 1
      simp [escList, escCharEnc]
      omega
    · by_cases hb : c = '\\'
      · subst hb
        rw [escList, show escCharEnc '\\' = ['\\', '\\'] from rfl]
        rw [show (['\\', '\\'] ++ escList tl) ++ cs
              = '\\' :: '\\' :: (escList tl ++ cs) from by simp]
        rw [show innerScan ('\\' :: '\\' :: (escList tl ++ cs)) true false d pos
              = innerScan ('\\' :: (escList tl ++ cs)) true true d (pos + 1) from by
            rw [innerScan.eq_def]; simp]
        rw [show innerScan ('\\' :: (escList tl ++ cs)) true true d (pos + 1)
              = innerScan (escList tl ++ cs) true false d (pos + 2) from by
            rw [innerScan.eq_def]; simp]
        rw [ih (pos + 2)]
        congr 1
        simp [escList, escCharEnc]
        omega
      · rw [escList, escCharEnc, if_neg hc, if_neg hb]
        rw [show ([c] ++ escList tl) ++ cs = c :: (escList tl ++ cs) from by simp]
        rw [show innerScan (c :: (escList tl ++ cs)) true false d pos
              = innerScan (escList tl ++ cs) true false d (pos + 1) from by
            rw [innerScan.eq_def]; simp [hb, hc]]
        rw [ih (pos + 1)]
        congr 1
        simp [escList, escCharEnc, hc, hb]
        omega

theorem innerScan_serStr (s : String) (cs : List Char) (d : Int) (pos : Nat) :
    innerScan (serStrChars s ++ cs) false false d pos
      = innerScan cs false false d (pos + (serStrChars s).length) := by
  rw [show serStrChars s ++ cs = '"' :: (escList s.data ++ ('"' :: cs)) from by
    simp [serStrChars]]
  rw [show innerScan ('"' :: (escList s.data ++ ('"' :: cs))) false false d pos
        = innerScan (escList s.data ++ ('"' :: cs)) true false d (pos + 1) from by
      rw [innerScan.eq_def]; simp]
  rw [innerScan_escList_inside]
  rw [show innerScan ('"' :: cs) true false d (pos + 1 + (escList s.data).length)
        = innerScan cs false false d (pos + 1 + (escList s.data).length + 1) from by
      rw [innerScan.eq_def]; simp]
  congr 1
  simp [serStrChars]
  omega

theorem serInt_plain (n : Int) : ∀ c ∈ serInt n, scanPlain c := by
  intro c hc
  unfold serInt at hc
  have hdig : ∀ x ∈ natToDigits n.natAbs, scanPlain x := by
    intro x hx
    have hd := natToDigits_all_digits n.natAbs x hx
    exact ⟨digit_ne_of_toNat hd '"' (by decide),
      digit_ne_of_toNat hd '\\' (by decide),
      digit_ne_of_toNat hd '{' (by decide),
      digit_ne_of_toNat hd '}' (by decide)⟩
  by_cases h : n < 0
  · rw [if_pos h] at hc
    rcases List.mem_cons.mp hc with h2 | h2
    · subst h2; exact ⟨by decide, by decide, by decide, by decide⟩
    · exact hdig c h2
  · rw [if_neg h] at hc
    exact hdig c hc

mutual

theorem innerScan_serV : ∀ (v : JValue) (d : Int), 1 ≤ d →
    ∀ (cs : List Char) (pos : Nat),
    innerScan (serV v ++ cs) false false d pos
      = innerScan cs false false d (pos + (serV v).length)
  | .null, d, _, cs, pos => by
    rw [innerScan_append_plain _ (by intro c hc; fin_cases hc <;>
      exact ⟨by decide, by decide, by decide, by decide⟩)]
  | .bool true, d, _, cs, pos => by
    rw [innerScan_append_plain _ (by intro c hc; fin_cases hc <;>
      exact ⟨by decide, by decide, by decide, by decide⟩)]
  | .bool false, d, _, cs, pos => by
    rw [innerScan_append_plain _ (by intro c hc; fin_cases hc <;>
      exact ⟨by decide, by decide, by decide, by decide⟩)]
  | .num n, d, _, cs, pos => by
    rw [show serV (JValue.num n) = serInt n from rfl,
      innerScan_append_plain _ (serInt_plain n)]
  | .str s, d, _, cs, pos => innerScan_serStr s cs d pos
  | .arr xs, d, hd, cs, pos => by
    rw [show serV (JValue.arr xs) ++ cs
          = '[' :: (serElemsList xs ++ (']' :: cs)) from by simp [serV]]
    rw [show innerScan ('[' :: (serElemsList xs ++ (']' :: cs))) false false d pos
          = innerScan (serElemsList xs ++ (']' :: cs)) false false d (pos + 1)
        from innerScan_cons_plain (by decide) (by decide) (by decide) (by decide) _ _ _]
    rw [innerScan_serElems xs d hd (']' :: cs) (pos + 1)]
    rw [innerScan_cons_plain (by decide) (by decide) (by decide) (by decide)]
    congr 1
    simp [serV]
    omega
  | .obj fs, d, hd, cs, pos => by
    rw [show serV (JValue.obj fs) ++ cs
          = '{' :: (serFieldsList fs ++ ('}' :: cs)) from by simp [serV]]
    rw [innerScan_cons_lbrace]
    rw [innerScan_serFields fs (d + 1) (by omega) ('}' :: cs) (pos + 1)]
    rw [innerScan_cons_rbrace_deep _ _ _ (by omega)]
    rw [show d + 1 - 1 = d from by omega]
    congr 1
    simp [serV]
    omega

theorem innerScan_serElems : ∀ (xs : List JValue) (d : Int), 1 ≤ d →
    ∀ (cs : List Char) (pos : Nat),
    innerScan (serElemsList xs ++ cs) false false d pos
      = innerScan cs false false d (pos + (serElemsList xs).length)
  | [], d, _, cs, pos => by simp [serElemsList]
  | [x], d, hd, cs, pos => by
    rw [show serElemsList [x] = serV x from rfl, innerScan_serV x d hd cs pos]
  | x :: y :: tl, d, hd, cs, pos => by
    rw [show serElemsList (x :: y :: tl) ++ cs
          = serV x ++ (',' :: (serElemsList (y :: tl) ++ cs)) from by
        simp [serElemsList]]
    rw [innerScan_serV x d hd _ pos]
    rw [innerScan_cons_plain (by decide) (by decide) (by decide) (by decide)]
    rw [innerScan_serElems (y :: tl) d hd cs _]
    congr 1
    simp [serElemsList]
    omega

theorem innerScan_serFields : ∀ (fs : List (String × JValue)) (d : Int), 1 ≤ d →
    ∀ (cs : List Char) (pos : Nat),
    innerScan (serFieldsList fs ++ cs) false false d pos
      = innerScan cs false false d (pos + (serFieldsList fs).length)
  | [], d, _, cs, pos => by simp [serFieldsList]
  | [(k, v)], d, hd, cs, pos => by
    rw [show serFieldsList [(k, v)] ++ cs
          = serStrChars k ++ (':' :: (serV v ++ cs)) from by
        simp [serFieldsList]]
    rw [innerScan_serStr]
    rw [innerScan_cons_plain (by decide) (by decide) (by decide) (by decide)]
    rw [innerScan_serV v d hd cs _]
    congr 1
    simp [serFieldsList]
    omega
  | (k, v) :: m :: tl, d, hd, cs, pos => by
    rw [show serFieldsList ((k, v) :: m :: tl) ++ cs
          = serStrChars k ++ (':' :: (serV v
              ++ (',' :: (serFieldsList (m :: tl) ++ cs)))) from by
        simp [serFieldsList]]
    rw [innerScan_serStr]
    rw [innerScan_cons_plain (by decide) (by decide) (by decide) (by decide)]
    rw [innerScan_serV v d hd _ _]
    rw [innerScan_cons_plain (by decide) (by decide) (by decide) (by decide)]
    rw [innerScan_serFields (m :: tl) d hd cs _]
    congr 1
    simp [serFieldsList]
    omega

end

theorem innerScan_serObj (fs : List (String × JValue)) (cs : List Char)
    (pos : Nat) :
    innerScan (serV (JValue.obj fs) ++ cs) false false 0 pos
      = some (pos + (serV (JValue.obj fs)).length) := by
  rw [show serV (JValue.obj fs) ++ cs
        = '{' :: (serFieldsList fs ++ ('}' :: cs)) from by simp [serV]]
  rw [innerScan_cons_lbrace]
  rw [innerScan_serFields fs (0 + 1) (by omega) ('}' :: cs) (pos + 1)]
  rw [show ((0 : Int) + 1) = 1 from by omega]
  rw [innerScan_cons_rbrace_one]
  congr 1
  simp [serV]
  omega

theorem serV_len_pos (v : JValue) : 1 ≤ (serV v).length := by
  obtain ⟨c, t, h, _, _, _⟩ := serV_head v
  simp [h]

mutual

theorem jsize_le : ∀ v : JValue, jsize v ≤ 2 * (serV v).length
  | .null => by simp [jsize, serV]
  | .bool true => by simp [jsize, serV]
  | .bool false => by simp [jsize, serV]
  | .num n => by
    have h := serV_len_pos (JValue.num n)
    simp only [jsize]
    omega
  | .str s => by
    have h := serV_len_pos (JValue.str s)
    simp only [jsize]
    omega
  | .arr xs => by
    have h := jsizeL_le xs
    have hl : (serV (JValue.arr xs)).length = (serElemsList xs).length + 2 := by
      simp [serV]
    simp only [jsize]
    omega
  | .obj fs => by
    have h := jsizeF_le fs
    have hl : (serV (JValue.obj fs)).length = (serFieldsList fs).length + 2 := by
      simp [serV]
    simp only [jsize]
    omega

theorem jsizeL_le :
    ∀ xs : List JValue, jsizeL xs ≤ 2 * (serElemsList xs).length + 3
  | [] => by simp [jsizeL, serElemsList]
  | [x] => by
    have h := jsize_le x
    have hl : (serElemsList [x]).length = (serV x).length := rfl
    simp only [jsizeL]
    omega
  | x :: y :: tl => by
    have h1 := jsize_le x
    have h2 := jsizeL_le (y :: tl)
    have hl : (serElemsList (x :: y :: tl)).length
        = (serV x).length + 1 + (serElemsList (y :: tl)).length := by
      simp [serElemsList]
      omega
    rw [show jsizeL (x :: y :: tl) = 1 + jsize x + jsizeL (y :: tl) from rfl]
    omega

theorem jsizeF_le :
    ∀ fs : List (String × JValue), jsizeF fs ≤ 2 * (serFieldsList fs).length + 3
  | [] => by simp [jsizeF, serFieldsList]
  | [(k, v)] => by
    have h := jsize_le v
    have hl : (serFieldsList [(k, v)]).length
        = (serStrChars k).length + 1 + (serV v).length := by
      simp [serFieldsList]
      omega
    simp only [jsizeF]
    omega
  | (k, v) :: m :: tl => by
    have h1 := jsize_le v
    have h2 := jsizeF_le (m :: tl)
    have hl : (serFieldsList ((k, v) :: m :: tl)).length
        = (serStrChars k).length + 1 + (serV v).length + 1
          + (serFieldsList (m :: tl)).length := by
      simp [serFieldsList]
      omega
    rw [show jsizeF ((k, v) :: m :: tl)
          = 1 + jsize v + jsizeF (m :: tl) from rfl]
    omega

end

theorem jsonLoads_serV (v : JValue) (ht : tameV v = true) :
    jsonLoadsChars (serV v) = some v := by
  unfold jsonLoadsChars
  have hft : jsize v ≤ 2 * (serV v).length + 2 := by
    have := jsize_le v
    omega
  have h1 := parse_serV v ht (2 * (serV v).length + 2) [] hft trivial
  rw [List.append_nil] at h1
  rw [h1]
  simp [skipWs]

theorem scanExtract_no_lbrace : ∀ (cs : List Char), '{' ∉ cs →
    scanExtract cs = [] := by
  intro cs
  induction cs with
  | nil =>
    intro _
    rw [scanExtract.eq_def]
  | cons c tl ih =>
    intro h
    have hc : ¬ c = '{' := by
      intro hq
      subst hq
      exact h (List.mem_cons_self _ _)
    rw [scanExtract.eq_def]
    simp only
    rw [if_neg hc]
    exact ih (fun hm => h (List.mem_cons_of_mem _ hm))

theorem scanExtract_obj_span (fs : List (String × JValue))
    (htame : tameF fs = true) (suffix : List Char) (hs : '{' ∉ suffix) :
    scanExtract (serV (JValue.obj fs) ++ suffix) = (normalizeCand fs).toList := by
  have hshape : serV (JValue.obj fs) ++ suffix
      = '{' :: ((serFieldsList fs ++ ['}']) ++ suffix) := by simp [serV]
  have hscan := innerScan_serObj fs suffix 0
  rw [hshape] at hscan ⊢
  rw [scanExtract.eq_def]
  simp only [if_true]
  rw [hscan]
  simp only
  have htake : ('{' :: ((serFieldsList fs ++ ['}']) ++ suffix)).take
      (0 + (serV (JValue.obj fs)).length) = serV (JValue.obj fs) := by
    rw [← hshape]
    simp [List.take_left]
  have hlen : (serV (JValue.obj fs)).length
      = ((serFieldsList fs ++ ['}']).length) + 1 := by
    simp [serV]
  have hdrop : ((serFieldsList fs ++ ['}']) ++ suffix).drop
      (0 + (serV (JValue.obj fs)).length - 1) = suffix := by
    rw [hlen]
    simp [List.drop_left]
  rw [htake, hdrop, jsonLoads_serV (JValue.obj fs) (by simpa [tameV] using htame)]
  simp only
  rw [scanExtract_no_lbrace suffix hs, List.append_nil]

theorem scanExtract_prefix_obj (fs : List (String × JValue))
    (htame : tameF fs = true) (p suffix : List Char)
    (hp : '{' ∉ p) (hs : '{' ∉ suffix) :
    scanExtract (p ++ (serV (JValue.obj fs) ++ suffix))
      = (normalizeCand fs).toList := by
  induction p with
  | nil => simpa using scanExtract_obj_span fs htame suffix hs
  | cons c p ih =>
    have hc : ¬ c = '{' := by
      intro hq
      subst hq
      exact hp (List.mem_cons_self _ _)
    rw [List.cons_append, scanExtract.eq_def]
    simp only
    rw [if_neg hc]
    exact ih (fun hm => hp (List.mem_cons_of_mem _ hm))

/-- Total form of the extractor's normalization on well-formed candidates:
append an `arguments` binding copied from `parameters` when only the latter
is present. -/
def normAdd (fs : List (String × JValue)) : List (String × JValue) :=
  if hasKeyF fs "parameters" ∧ ¬ hasKeyF fs "arguments" then
    fs ++ [("arguments", (getKeyF fs "parameters").getD JValue.null)]
  else fs

theorem hasKeyF_append (fs gs : List (String × JValue)) (k : String) :
    hasKeyF (fs ++ gs) k = (hasKeyF fs k || hasKeyF gs k) := by
  simp [hasKeyF, List.any_append]

theorem normalizeCand_eq_normAdd (fs : List (String × JValue))
    (hname : hasKeyF fs "name" = true)
    (hargs : hasKeyF fs "arguments" = true ∨ hasKeyF fs "parameters" = true) :
    normalizeCand fs = some (normAdd fs) := by
  unfold normalizeCand normAdd
  rw [if_pos hname]
  by_cases hc : hasKeyF fs "parameters" = true ∧ ¬ hasKeyF fs "arguments" = true
  · rw [if_pos hc, if_pos (by simp [hasKeyF_append, hasKeyF])]
  · rw [if_neg hc]
    have hA : hasKeyF fs "arguments" = true := by
      cases hA : hasKeyF fs "arguments" with
      | true => rfl
      | false =>
        rcases hargs with h | h
        · rw [hA] at h; exact absurd h (by simp)
        · exact absurd ⟨h, by simp [hA]⟩ hc
    rw [if_pos hA]

theorem normAdd_arguments (fs : List (String × JValue))
    (hargs : hasKeyF fs "arguments" = true ∨ hasKeyF fs "parameters" = true) :
    hasKeyF (normAdd fs) "arguments" = true := by
  unfold normAdd
  by_cases hc : hasKeyF fs "parameters" = true ∧ ¬ hasKeyF fs "arguments" = true
  · rw [if_pos hc]
    simp [hasKeyF_append, hasKeyF]
  · rw [if_neg hc]
    cases hA : hasKeyF fs "arguments" with
    | true => rfl
    | false =>
      rcases hargs with h | h
      · rw [hA] at h; exact absurd h (by simp)
      · exact absurd ⟨h, by simp [hA]⟩ hc

theorem normAdd_name (fs : List (String × JValue))
    (hname : hasKeyF fs "name" = true) :
    hasKeyF (normAdd fs) "name" = true := by
  unfold normAdd
  by_cases hc : hasKeyF fs "parameters" = true ∧ ¬ hasKeyF fs "arguments" = true
  · rw [if_pos hc, hasKeyF_append, hname]
    rfl
  · rw [if_neg hc]
    exact hname

theorem pyStripChars_noop_of (c : Char) (mid : List Char) (d : Char)
    (hc : isPyWsChar c = false) (hd : isPyWsChar d = false) :
    pyStripChars (c :: (mid ++ [d])) = c :: (mid ++ [d]) := by
  unfold pyStripChars
  rw [List.dropWhile_cons, if_neg (by simp [hc])]
  have hrev : (c :: (mid ++ [d])).reverse = d :: (mid.reverse ++ [c]) := by
    simp
  rw [hrev, List.dropWhile_cons, if_neg (by simp [hd]), ← hrev,
    List.reverse_reverse]

theorem strategy1_ser_arr (items : List JValue) (ht : tameL items = true) :
    strategy1 (String.mk (serV (JValue.arr items)))
      = items.filterMap (fun it =>
          match it with
          | JValue.obj fs => normalizeCand fs
          | _ => none) := by
  unfold strategy1
  rw [show (String.mk (serV (JValue.arr items))).data
        = serV (JValue.arr items) from rfl]
  have hstrip : pyStripChars (serV (JValue.arr items))
      = serV (JValue.arr items) := by
    rw [show serV (JValue.arr items)
          = '[' :: (serElemsList items ++ [']']) from by simp [serV]]
    exact pyStripChars_noop_of '[' _ ']' (by decide) (by decide)
  rw [hstrip, jsonLoads_serV (JValue.arr items) (by simpa [tameV] using ht)]

theorem tameL_map_obj (objs : List (List (String × JValue)))
    (h : ∀ fs ∈ objs, tameF fs = true) :
    tameL (objs.map JValue.obj) = true := by
  induction objs with
  | nil => rfl
  | cons fs tl ih =>
    simp only [List.map_cons, tameL, Bool.and_eq_true, tameV]
    exact ⟨h fs (List.mem_cons_self fs tl),
      ih (fun x hx => h x (List.mem_cons_of_mem _ hx))⟩

/-- C5: for any tame tool-call object — in particular one whose string
values contain literal braces and backslash-escaped quotes, which the
serializer emits inside double-quoted string literals — embedded in prose
containing no other `\x7b`, the brace-balanced scanner of the extractor pairs
the object's opening brace with its matching closing brace (consuming
exactly the serialized span), the full object substring parses, and the
object is accepted as exactly one candidate carrying `name` and
`arguments`. -/
theorem C5_brace_scanner_robust_to_braces_in_strings
    (fs : List (String × JValue)) (p suffix : List Char)
    (htame : tameF fs = true)
    (hname : hasKeyF fs "name" = true)
    (hargs : hasKeyF fs "arguments" = true ∨ hasKeyF fs "parameters" = true)
    (hp : '{' ∉ p) (hs : '{' ∉ suffix) :
    innerScan (serV (JValue.obj fs) ++ suffix) false false 0 0
        = some ((serV (JValue.obj fs)).length)
    ∧ jsonLoadsChars (serV (JValue.obj fs)) = some (JValue.obj fs)
    ∧ scanExtract (p ++ (serV (JValue.obj fs) ++ suffix)) = [normAdd fs]
    ∧ hasKeyF (normAdd fs) "name" = true
    ∧ hasKeyF (normAdd fs) "arguments" = true := by
  refine ⟨by simpa using innerScan_serObj fs suffix 0,
    jsonLoads_serV (JValue.obj fs) (by simpa [tameV] using htame), ?_,
    normAdd_name fs hname, normAdd_arguments fs hargs⟩
  rw [scanExtract_prefix_obj fs htame p suffix hp hs,
    normalizeCand_eq_normAdd fs hname hargs]
  rfl

/-- Concrete input for the C5 witness: a `write_file` call whose `content`
string contains literal braces and escaped quotes. -/
def c5fs : List (String × JValue) :=
  [("name", JValue.str "write_file"),
   ("arguments", JValue.obj
     [("path", JValue.str "./a.txt"),
      ("content", JValue.str "if (x) \x7b y(\x22s\x22) \x7d else \x7b z \x7d")])]

/-- Prose prefix for the C5 witness (no opening brace). -/
def c5p : List Char := "Sure, writing the file now: ".data

/-- Prose suffix for the C5 witness (no opening brace). -/
def c5suffix : List Char := " ...done.".data

theorem C5_brace_scanner_robust_to_braces_in_strings_witness :
    (tameF c5fs = true ∧ hasKeyF c5fs "name" = true
      ∧ hasKeyF c5fs "arguments" = true
      ∧ '{' ∉ c5p ∧ '{' ∉ c5suffix)
    ∧ scanExtract (c5p ++ (serV (JValue.obj c5fs) ++ c5suffix))
        = [normAdd c5fs] :=
  ⟨⟨by decide, by decide, by decide, by decide, by decide⟩,
    (C5_brace_scanner_robust_to_braces_in_strings c5fs c5p c5suffix
      (by decide) (by decide) (Or.inl (by decide))
      (by decide) (by decide)).2.2.1⟩

/-- C6: for any JSON array of tool-call objects given as the whole model
text, the extractor's whole-text strategy keeps exactly the elements that
are mappings with a `name` key and an `arguments`/`parameters` key, in array
order, dropping ill-formed elements rather than failing; when every element
is well-formed it returns exactly N candidates, in order, each carrying an
`arguments` key (populated from `parameters` when needed). -/
theorem C6_whole_text_array_extraction :
    (∀ items : List JValue, tameL items = true →
      strategy1 (String.mk (serV (JValue.arr items)))
        = items.filterMap (fun it =>
            match it with
            | JValue.obj fs => normalizeCand fs
            | _ => none))
    ∧ (∀ objs : List (List (String × JValue)),
        (∀ fs ∈ objs, tameF fs = true) →
        (∀ fs ∈ objs, hasKeyF fs "name" = true ∧
          (hasKeyF fs "arguments" = true ∨ hasKeyF fs "parameters" = true)) →
        strategy1 (String.mk (serV (JValue.arr (objs.map JValue.obj))))
            = objs.map normAdd
          ∧ (objs.map normAdd).length = objs.length
          ∧ ∀ cand ∈ objs.map normAdd, hasKeyF cand "arguments" = true) := by
  constructor
  · exact fun items ht => strategy1_ser_arr items ht
  · intro objs htame hwf
    refine ⟨?_, by simp, ?_⟩
    · rw [strategy1_ser_arr (objs.map JValue.obj) (tameL_map_obj objs htame)]
      induction objs with
      | nil => rfl
      | cons fs tl ih =>
        have hwfh := hwf fs (List.mem_cons_self fs tl)
        simp only [List.map_cons, List.filterMap_cons]
        rw [normalizeCand_eq_normAdd fs hwfh.1 hwfh.2]
        rw [ih (fun x hx => htame x (List.mem_cons_of_mem _ hx))
          (fun x hx => hwf x (List.mem_cons_of_mem _ hx))]
    · intro cand hcand
      obtain ⟨fs, hfs, rfl⟩ := List.mem_map.mp hcand
      exact normAdd_arguments fs (hwf fs hfs).2

/-- Concrete array for the C6 witness: two well-formed calls, the second
using `parameters` in place of `arguments`. -/
def c6objs : List (List (String × JValue)) :=
  [[("name", JValue.str "write_file"),
    ("arguments", JValue.obj [("path", JValue.str "./a.txt"),
                              ("content", JValue.str "x")])],
   [("name", JValue.str "read_file"),
    ("parameters", JValue.obj [("path", JValue.str "./b.txt")])]]

theorem C6_whole_text_array_extraction_witness :
    (∀ fs ∈ c6objs, tameF fs = true)
    ∧ (∀ fs ∈ c6objs, hasKeyF fs "name" = true ∧
        (hasKeyF fs "arguments" = true ∨ hasKeyF fs "parameters" = true))
    ∧ strategy1 (String.mk (serV (JValue.arr (c6objs.map JValue.obj))))
        = c6objs.map normAdd
    ∧ (c6objs.map normAdd).length = 2 :=
  ⟨by decide, by decide,
    (C6_whole_text_array_extraction.2 c6objs (by decide) (by decide)).1,
    by decide⟩

/-- Split a character list at `/` separators (the segments of Python
`s.split("/")`, including empty pieces). -/
def splitSlashAux : List Char → List Char → List String
  | [], cur => [String.mk cur.reverse]
  | c :: tl, cur =>
    if c = '/' then String.mk cur.reverse :: splitSlashAux tl []
    else splitSlashAux tl (c :: cur)

/-- Path segments of a POSIX path string, as `PurePosixPath.parts` (minus
the root): empty segments from duplicate slashes and `.` segments are
dropped, `..` segments are kept. -/
def splitSegs (s : String) : List String :=
  (splitSlashAux s.data []).filter (fun t => !(t == "") && !(t == "."))

/-- Lexical `..` resolution of `Path.resolve()` over segments of an
absolute path: `..` pops the last segment (staying at the root when there
is nothing to pop, as `/..` resolves to `/`).  Symlinks are not modelled;
on paths that do not exist, `resolve()` is this lexical normalization. -/
def resolveSegs : List String → List String → List String
  | acc, [] => acc
  | acc, s :: tl =>
    if s = ".." then resolveSegs acc.dropLast tl
    else resolveSegs (acc ++ [s]) tl

/-- Strip one leading `./` (Python `p.startswith("./")` then `p[2:]`), as
the path-fixing block of `_agent_invoke` does before joining with the
workspace. -/
def stripDotSlash (p : String) : String :=
  match p.data with
  | '.' :: '/' :: tl => String.mk tl
  | _ => p

/-- `PurePosixPath.is_absolute` on the modelled POSIX fragment (the path
starts with `/`). -/
def pyIsAbsolute (p : String) : Bool :=
  match p.data with
  | '/' :: _ => true
  | _ => false

/-- Resolved segments of `(workspace / original_path).resolve()` for a
relative `original_path` (after the `./` strip). -/
def resolveSegsFull (ws p : String) : List String :=
  resolveSegs [] (splitSegs ws ++ splitSegs (stripDotSlash p))

/-- Join segments with `/` separators. -/
def joinSlashChars : List String → List Char
  | [] => []
  | [s] => s.data
  | s :: m :: tl => s.data ++ '/' :: joinSlashChars (m :: tl)

/-- String form of the resolved absolute path (`str(abs_path)`). -/
def resolvedPathStr (ws p : String) : String :=
  "/" ++ String.mk (joinSlashChars (resolveSegsFull ws p))

/-- Substring containment, as Python `needle in hay`. -/
def strContains (hay needle : String) : Bool :=
  decide (needle.data <:+: hay.data)

/-- `str(PurePosixPath(p).parent)` on the modelled fragment. -/
def parentOfPath (p : String) : String :=
  let segs := splitSegs p
  if pyIsAbsolute p then
    if segs.length ≤ 1 then "/"
    else "/" ++ String.mk (joinSlashChars segs.dropLast)
  else
    if segs.length ≤ 1 then "."
    else String.mk (joinSlashChars segs.dropLast)

/-- Python truthiness filter for a string-valued argument: absent keys and
empty strings are falsy.  Non-string path values are outside the modelled
fragment (`Path(value)` would raise for them). -/
def strValTruthy : Option JValue → Option String
  | some (JValue.str s) => if s = "" then none else some s
  | _ => none

/-- `tool_args.get("path") or tool_args.get("file_path")` with Python
truthiness. -/
def pathArgTruthy (args : List (String × JValue)) : Option String :=
  match strValTruthy (getKeyF args "path") with
  | some s => some s
  | none => strValTruthy (getKeyF args "file_path")

/-- `(self.workspace / p).resolve()` — joining replaces the workspace when
`p` is absolute, as `Path./` does. -/
def pyJoinResolve (ws p : String) : String :=
  if pyIsAbsolute p then
    "/" ++ String.mk (joinSlashChars (resolveSegs [] (splitSegs p)))
  else resolvedPathStr ws p

/-- The argument `_ensure_parent_directory_exists` would pass to the
`create_directory` tool, when the auto-mkdir step fires
(`"write_file" in tool_name.lower()`, a truthy path argument, parent not
`.`); `none` when the step is skipped.  The invocation itself and its
swallowed errors are external effects. -/
def autoMkdirArg (ws : String) (toolName : String)
    (args : List (String × JValue)) : Option String :=
  if strContains toolName.toLower "write_file" then
    match pathArgTruthy args with
    | none => none
    | some fp =>
      let parent := parentOfPath fp
      if parent = "." then none
      else some (pyJoinResolve ws (stripDotSlash parent))
  else none

/-- A fetched tool capability: exact name plus an invoke that may raise
(modelled by `Except.error`); results are stringified by the loop. -/
structure Capability where
  name : String
  invoke : List (String × JValue) → Except String String

/-- Tool lookup of `_agent_invoke`: first capability whose name equals the
requested name exactly. -/
def findTool (tools : List Capability) (name : String) : Option Capability :=
  tools.find? (fun t => t.name == name)

/-- Content of the `ToolMessage` appended by the structured branch
(Branch A) for one call: the stringified result, the synthetic not-found
string, or the caught-exception string. -/
def msgContentA (tools : List Capability) (name : String)
    (args : List (String × JValue)) : String :=
  match findTool tools name with
  | none => "Error: Tool " ++ name ++ " not found"
  | some t =>
    match t.invoke args with
    | Except.ok r => r
    | Except.error e => "Error executing tool: " ++ e

/-- Record of one structured call's processing in Branch A: the auto-mkdir
request, the arguments actually passed to the capability, and the appended
message content.  Branch A performs no path resolution: `tool_args` is
passed to `tool.ainvoke` unchanged. -/
structure StepARecord where
  mkdirArg : Option String
  argsPassed : List (String × JValue)
  msgContent : String

/-- Branch A per-call processing (`coding_agent.py` lines 571-618). -/
def stepA (ws : String) (tools : List Capability) (name : String)
    (args : List (String × JValue)) : StepARecord :=
  { mkdirArg := autoMkdirArg ws name args
  , argsPassed := args
  , msgContent := msgContentA tools name args }

/-- Python dict assignment `d[k] = v`: overwrite in place when present,
append when absent. -/
def setKeyDict (fs : List (String × JValue)) (k : String) (v : JValue) :
    List (String × JValue) :=
  if hasKeyF fs k then fs.map (fun p => if p.1 == k then (k, v) else p)
  else fs ++ [(k, v)]

/-- The path-fixing block of Branch B (`coding_agent.py` lines 736-751):
for the four filesystem tool names with a `path` argument, a relative path
is stripped of one `./` and joined/resolved against the workspace; an
absolute path passes through; a non-string path raises (`Path(value)`),
which the surrounding `except` turns into an error line. -/
def fixArgsB (ws : String) (name : String) (args : List (String × JValue)) :
    Except String (List (String × JValue)) :=
  if (name = "write_file" ∨ name = "read_file" ∨ name = "read_text_file"
        ∨ name = "edit_file")
      ∧ hasKeyF args "path" = true then
    match getKeyF args "path" with
    | some (JValue.str p) =>
      if pyIsAbsolute p then Except.ok args
      else Except.ok (setKeyDict args "path" (JValue.str (resolvedPathStr ws p)))
    | some _ => Except.error "TypeError: argument should be a str"
    | none => Except.ok args
  else Except.ok args

/-- Record of one extracted call's processing in Branch B. -/
structure StepBRecord where
  mkdirArg : Option String
  argsPassed : Option (List (String × JValue))
  line : String

/-- Branch B per-call processing (`coding_agent.py` lines 717-779):
auto-mkdir on the original relative path, then path fixing, then lookup and
invocation; the result line is `f"{tool_name}: {tool_result}"`, and any
exception becomes `f"Error: {e}"`. -/
def stepB (ws : String) (tools : List Capability) (name : String)
    (args : List (String × JValue)) : StepBRecord :=
  match fixArgsB ws name args with
  | Except.error e =>
    { mkdirArg := autoMkdirArg ws name args
    , argsPassed := none
    , line := "Error: " ++ e }
  | Except.ok args2 =>
    { mkdirArg := autoMkdirArg ws name args
    , argsPassed := some args2
    , line :=
        match findTool tools name with
        | none => name ++ ": " ++ ("Error: Tool " ++ name ++ " not found")
        | some t =>
          match t.invoke args2 with
          | Except.ok r => name ++ ": " ++ r
          | Except.error e => "Error: " ++ e }

/-- Branch A processing of a whole structured-call list: one `ToolMessage`
per call, in order. -/
def processCallsA (tools : List Capability)
    (calls : List (String × List (String × JValue))) : List String :=
  calls.map (fun c => msgContentA tools c.1 c.2)

/-- Branch B processing of a whole candidate list: one result line per
call, in order. -/
def processCallsB (ws : String) (tools : List Capability)
    (cands : List (String × List (String × JValue))) : List String :=
  cands.map (fun c => (stepB ws tools c.1 c.2).line)

/-- The single human-role message Branch B appends after executing the
extracted calls. -/
def toolResultsMessage (lines : List String) : String :=
  "Tool execution results:\n" ++ String.intercalate "\n" lines

theorem getKeyF_aux_const (k : String) :
    ∀ (fs : List (String × JValue)) (acc : Option JValue),
    (∀ p ∈ fs, (p.1 == k) = false) →
    List.foldl (fun acc p => if p.1 == k then some p.2 else acc) acc fs = acc := by
  intro fs
  induction fs with
  | nil => intro acc _; rfl
  | cons q tl ih =>
    intro acc h
    rw [List.foldl_cons, if_neg (by simp [h q (List.mem_cons_self q tl)])]
    exact ih acc (fun p hp => h p (List.mem_cons_of_mem _ hp))

theorem hasKeyF_of_getKeyF_some (fs : List (String × JValue)) (k : String)
    (v : JValue) (h : getKeyF fs k = some v) : hasKeyF fs k = true := by
  by_contra hn
  have hall : ∀ p ∈ fs, (p.1 == k) = false := by
    intro p hp
    cases hb : (p.1 == k) with
    | false => rfl
    | true =>
      exact absurd (by rw [hasKeyF, List.any_eq_true]; exact ⟨p, hp, hb⟩) hn
  rw [getKeyF, getKeyF_aux_const k fs none hall] at h
  exact Option.noConfusion h

theorem resolveSegs_no_dotdot :
    ∀ (l acc : List String), ".." ∉ l → resolveSegs acc l = acc ++ l := by
  intro l
  induction l with
  | nil => intro acc _; simp [resolveSegs]
  | cons s tl ih =>
    intro acc h
    have hs : ¬ s = ".." := by
      intro hq
      subst hq
      exact h (List.mem_cons_self _ _)
    rw [resolveSegs.eq_def]
    simp only
    rw [if_neg hs, ih (acc ++ [s]) (fun hm => h (List.mem_cons_of_mem _ hm))]
    simp

/-- C2 counterexample: the relative input `../etc/passwd` (no leading
`./`) resolves to `/etc/passwd`, which is not a descendant of the
workspace root `/ws` — the claim's "including inputs containing `..`
segments" fails on the code's join-and-resolve scheme, and the Branch B
path fixer passes the escaped path to the tool. -/
theorem C2_counterexample_dotdot_escapes_workspace :
    pyIsAbsolute "../etc/passwd" = false
    ∧ resolveSegsFull "/ws" "../etc/passwd" = ["etc", "passwd"]
    ∧ resolvedPathStr "/ws" "../etc/passwd" = "/etc/passwd"
    ∧ ¬ (splitSegs "/ws" <+: resolveSegsFull "/ws" "../etc/passwd")
    ∧ fixArgsB "/ws" "write_file" [("path", JValue.str "../etc/passwd")]
        = Except.ok [("path", JValue.str "/etc/passwd")] := by
  refine ⟨by decide, by decide, by decide, by decide, ?_⟩
  rfl

/-- C2 (amended): for a relative input path, with or without a leading
`./`, whose segments contain no `..` (and a canonical workspace root), the
resolved absolute path extends the workspace root segment-by-segment, so
it is confined to the workspace; the Branch B fixer rewrites the `path`
argument to exactly this resolved path. -/
theorem C2_amended_resolution_confined_without_dotdot (ws p : String)
    (hwsnd : ".." ∉ splitSegs ws)
    (hrel : pyIsAbsolute p = false)
    (hnd : ".." ∉ splitSegs (stripDotSlash p)) :
    resolveSegsFull ws p = splitSegs ws ++ splitSegs (stripDotSlash p)
    ∧ splitSegs ws <+: resolveSegsFull ws p
    ∧ fixArgsB ws "write_file" [("path", JValue.str p)]
        = Except.ok [("path", JValue.str (resolvedPathStr ws p))] := by
  have h1 : resolveSegsFull ws p
      = splitSegs ws ++ splitSegs (stripDotSlash p) := by
    unfold resolveSegsFull
    rw [resolveSegs_no_dotdot _ [] (by
      intro hm
      rcases List.mem_append.mp hm with h | h
      · exact hwsnd h
      · exact hnd h)]
    simp
  refine ⟨h1, by rw [h1]; exact List.prefix_append _ _, ?_⟩
  unfold fixArgsB
  rw [if_pos ⟨Or.inl rfl, by simp [hasKeyF]⟩]
  rw [show getKeyF [("path", JValue.str p)] "path"
        = some (JValue.str p) from rfl]
  simp [hrel, setKeyDict, hasKeyF]

theorem C2_amended_resolution_confined_without_dotdot_witness :
    (".." ∉ splitSegs "/ws" ∧ pyIsAbsolute "./hello.txt" = false
      ∧ ".." ∉ splitSegs (stripDotSlash "./hello.txt"))
    ∧ splitSegs "/ws" <+: resolveSegsFull "/ws" "./hello.txt" :=
  ⟨⟨by decide, by decide, by decide⟩,
    (C2_amended_resolution_confined_without_dotdot "/ws" "./hello.txt"
      (by decide) (by decide) (by decide)).2.1⟩

/-- C1 counterexample: for the structured call
`write_file(path="./hello.txt")` against workspace `/ws`, Branch A passes
the arguments to the tool unchanged (no path resolution), while the
text-extraction branch rewrites `path` to `/ws/hello.txt` — so the
structured branch does not perform "the same resolution the
text-extraction branch performs". -/
theorem C1_counterexample_structured_branch_skips_resolution :
    (stepA "/ws" [] "write_file" [("path", JValue.str "./hello.txt")]).argsPassed
        = [("path", JValue.str "./hello.txt")]
    ∧ (stepB "/ws" [] "write_file" [("path", JValue.str "./hello.txt")]).argsPassed
        = some [("path", JValue.str "/ws/hello.txt")]
    ∧ [("path", JValue.str "./hello.txt")]
        ≠ [("path", JValue.str "/ws/hello.txt")] := by
  refine ⟨rfl, ?_, by decide⟩
  rfl

/-- C1 (amended): path resolution happens only in the text-extraction
branch.  Branch A always passes the model's arguments to the capability
verbatim (only auto-mkdir runs first), while Branch B, for the four
filesystem-affecting tool names with a relative string `path`, rewrites
`path` to the workspace-resolved absolute form before invoking. -/
theorem C1_amended_only_text_branch_resolves (ws : String)
    (tools : List Capability) (name : String)
    (args : List (String × JValue)) (p : String)
    (hname4 : name = "write_file" ∨ name = "read_file"
        ∨ name = "read_text_file" ∨ name = "edit_file")
    (hget : getKeyF args "path" = some (JValue.str p))
    (hrel : pyIsAbsolute p = false) :
    (stepA ws tools name args).argsPassed = args
    ∧ (stepB ws tools name args).argsPassed
        = some (setKeyDict args "path" (JValue.str (resolvedPathStr ws p))) := by
  refine ⟨rfl, ?_⟩
  have hk : hasKeyF args "path" = true := hasKeyF_of_getKeyF_some args "path" _ hget
  unfold stepB fixArgsB
  rw [if_pos ⟨hname4, hk⟩, hget]
  simp [hrel]

theorem C1_amended_only_text_branch_resolves_witness :
    (getKeyF [("path", JValue.str "./x/y.txt")] "path"
        = some (JValue.str "./x/y.txt")
      ∧ pyIsAbsolute "./x/y.txt" = false)
    ∧ (stepA "/ws" [] "write_file" [("path", JValue.str "./x/y.txt")]).argsPassed
        = [("path", JValue.str "./x/y.txt")]
    ∧ (stepB "/ws" [] "write_file" [("path", JValue.str "./x/y.txt")]).argsPassed
        = some (setKeyDict [("path", JValue.str "./x/y.txt")] "path"
            (JValue.str (resolvedPathStr "/ws" "./x/y.txt"))) :=
  ⟨⟨rfl, by decide⟩,
    (C1_amended_only_text_branch_resolves "/ws" [] "write_file"
      [("path", JValue.str "./x/y.txt")] "./x/y.txt"
      (Or.inl rfl) rfl (by decide)).1,
    (C1_amended_only_text_branch_resolves "/ws" [] "write_file"
      [("path", JValue.str "./x/y.txt")] "./x/y.txt"
      (Or.inl rfl) rfl (by decide)).2⟩

/-- C7: in both branches of the agent loop, tool execution absorbs
failures and continues: the per-call processors are total and produce one
result per call; a requested name matching no fetched capability yields the
synthetic `Error: Tool ... not found` result; an exception raised by a tool
invocation is caught and converted into an error-result message (Branch A:
`Error executing tool: ...` in the correlated `ToolMessage`; Branch B:
`Error: ...` in the joined results line) — nothing propagates out of the
per-call processing. -/
theorem C7_missing_tool_and_exceptions_absorbed :
    (∀ (tools : List Capability)
       (calls : List (String × List (String × JValue))),
      (processCallsA tools calls).length = calls.length)
    ∧ (∀ (ws : String) (tools : List Capability)
         (cands : List (String × List (String × JValue))),
        (processCallsB ws tools cands).length = cands.length)
    ∧ (∀ (tools : List Capability) (name : String)
         (args : List (String × JValue)),
        (∀ t ∈ tools, ¬ t.name = name) →
        msgContentA tools name args = "Error: Tool " ++ name ++ " not found")
    ∧ (∀ (ws : String) (tools : List Capability) (name : String)
         (args args2 : List (String × JValue)),
        (∀ t ∈ tools, ¬ t.name = name) →
        fixArgsB ws name args = Except.ok args2 →
        (stepB ws tools name args).line
          = name ++ ": " ++ ("Error: Tool " ++ name ++ " not found"))
    ∧ (∀ (tools : List Capability) (name : String)
         (args : List (String × JValue)) (t : Capability) (e : String),
        findTool tools name = some t → t.invoke args = Except.error e →
        msgContentA tools name args = "Error executing tool: " ++ e)
    ∧ (∀ (ws : String) (tools : List Capability) (name : String)
         (args args2 : List (String × JValue)) (t : Capability) (e : String),
        fixArgsB ws name args = Except.ok args2 →
        findTool tools name = some t → t.invoke args2 = Except.error e →
        (stepB ws tools name args).line = "Error: " ++ e) := by
  have hnone : ∀ (tools : List Capability) (name : String),
      (∀ t ∈ tools, ¬ t.name = name) → findTool tools name = none := by
    intro tools name h
    rw [findTool, List.find?_eq_none]
    intro t ht
    simp [h t ht]
  refine ⟨fun tools calls => by simp [processCallsA],
    fun ws tools cands => by simp [processCallsB], ?_, ?_, ?_, ?_⟩
  · intro tools name args h
    rw [msgContentA, hnone tools name h]
  · intro ws tools name args args2 h hfix
    rw [stepB, hfix]
    simp only
    rw [hnone tools name h]
  · intro tools name args t e hfind hinv
    rw [msgContentA, hfind]
    simp only
    rw [hinv]
  · intro ws tools name args args2 t e hfix hfind hinv
    rw [stepB, hfix]
    simp only
    rw [hfind]
    simp only
    rw [hinv]

/-- Capability for the C7 witness whose invocation always raises. -/
def c7cap : Capability :=
  { name := "write_file", invoke := fun _ => Except.error "boom" }

theorem C7_missing_tool_and_exceptions_absorbed_witness :
    ((∀ t ∈ [c7cap], ¬ t.name = "nope")
      ∧ msgContentA [c7cap] "nope" []
          = "Error: Tool " ++ "nope" ++ " not found")
    ∧ (findTool [c7cap] "write_file" = some c7cap
      ∧ c7cap.invoke [] = Except.error "boom"
      ∧ msgContentA [c7cap] "write_file" []
          = "Error executing tool: " ++ "boom") :=
  ⟨⟨by decide,
    C7_missing_tool_and_exceptions_absorbed.2.2.1 [c7cap] "nope" []
      (by decide)⟩,
   ⟨rfl, rfl,
    C7_missing_tool_and_exceptions_absorbed.2.2.2.2.1 [c7cap] "write_file" []
      c7cap "boom" rfl rfl⟩⟩

/-- A conversation message (`{"role": ..., "content": ...}`).  The source
reads both fields with `.get` and a default; the modelled fragment carries
them totally. -/
structure Msg where
  role : String
  content : String
deriving DecidableEq, Repr

/-- `MemoryCompactor.should_compact`: estimate tokens as the total content
character count integer-divided by 4 and compare strictly against the
threshold. -/
def shouldCompact (threshold : Int) (messages : List Msg) : Bool :=
  let totalChars := (messages.map (fun m => m.content.length)).sum
  let estimatedTokens := (totalChars : Int) / 4
  decide (estimatedTokens > threshold)

/-- Python `messages[-keep_recent:]` for a natural `keep_recent`: the last
`keep_recent` entries, except that `-0` is `0`, so `keep_recent = 0` keeps
the whole list. -/
def pyTailSlice (xs : List Msg) (k : Nat) : List Msg :=
  if k = 0 then xs else xs.drop (xs.length - k)

/-- Python `messages[:-keep_recent]` for a natural `keep_recent`: all but
the last `keep_recent` entries, except that `-0` is `0`, so
`keep_recent = 0` takes nothing. -/
def pyDropTailSlice (xs : List Msg) (k : Nat) : List Msg :=
  if k = 0 then [] else xs.take (xs.length - k)

/-- The synthetic summary message spliced in by
`MemoryCompactor.compact_with_summary`. -/
def mkSummaryMsg (summary : String) : Msg :=
  { role := "system", content := "[Conversation Summary]\n\n" ++ summary }

/-- `MemoryCompactor.compact_with_summary`: below or at `keep_recent`,
return the input unchanged; otherwise the summary message followed by
`messages[-keep_recent:]`. -/
def compactWithSummary (messages : List Msg) (summary : String)
    (keepRecent : Nat) : List Msg :=
  if messages.length ≤ keepRecent then messages
  else mkSummaryMsg summary :: pyTailSlice messages keepRecent

/-- Python `str.capitalize()`: first character uppercased, the rest
lowercased (ASCII fragment). -/
def pyCapitalize (s : String) : String :=
  match s.data with
  | [] => s
  | c :: tl => String.mk (c.toUpper :: tl.map Char.toLower)

/-- `MemoryCompactor._format_messages_for_summary`: `"{Role}: {content}"`
lines joined by blank lines. -/
def formatMessagesForSummary (messages : List Msg) : String :=
  String.intercalate "\n\n"
    (messages.map (fun m => pyCapitalize m.role ++ ": " ++ m.content))

/-- `MemoryCompactor._create_summary_prompt`. -/
def createSummaryPrompt (conversationText : String) : String :=
  "You are a conversation summarizer. Your task is to create a concise but comprehensive summary of the following conversation.\n\nFocus on:\n- Key decisions made\n- Important context established\n- Main topics discussed\n- Any unresolved issues or pending tasks\n\nKeep the summary focused and relevant. Aim for 3-5 sentences that capture the essential information.\n\nCONVERSATION:\n"
    ++ conversationText ++ "\n\nSUMMARY:"

/-- `MemoryCompactor._create_fallback_summary`. -/
def createFallbackSummary (messages : List Msg) : String :=
  let msgCount := messages.length
  let userMsgs := (messages.filter (fun m => m.role == "user")).length
  let assistantMsgs := (messages.filter (fun m => m.role == "assistant")).length
  "Previous conversation context: " ++ toString msgCount
    ++ " messages exchanged (" ++ toString userMsgs ++ " user, "
    ++ toString assistantMsgs ++ " assistant). "
    ++ "Full context available in conversation history."

/-- `MemoryCompactor.compact_conversation`.  The summarizer model is
obtained from the model selector only after the length check; obtaining it
(`get_model`) sits outside the inner `try`, so its exception propagates,
while a failure of the model invocation itself is caught and replaced by
the deterministic fallback summary.  `getSummarizer` models
`model_selector.get_model("summarizer")` (an `Except.error` is a raised
exception) and its payload models `summarizer.ainvoke`. -/
def compactConversation
    (getSummarizer : Except String (String → Except String String))
    (messages : List Msg) (keepRecent : Nat) : Except String String :=
  if messages.length ≤ keepRecent then Except.ok ""
  else
    let messagesToSummarize := pyDropTailSlice messages keepRecent
    let conversationText := formatMessagesForSummary messagesToSummarize
    match getSummarizer with
    | Except.error e => Except.error e
    | Except.ok summarize =>
      match summarize (createSummaryPrompt conversationText) with
      | Except.ok resp => Except.ok resp
      | Except.error _ => Except.ok (createFallbackSummary messagesToSummarize)

/-- A message whose content is `n` copies of `a`, for threshold boundary
checks. -/
def aMsg (n : Nat) : Msg := { role := "user", content := String.mk (List.replicate n 'a') }

/-- C4 counterexample: with the default threshold 6000, a single message of
24001 characters estimates to 24001 / 4 = 6000 tokens, which is not
strictly greater than 6000, so `should_compact` returns false — the
claim's "a message one character longer does trigger it" is wrong. -/
theorem string_length_mk (l : List Char) : (String.mk l).length = l.length := rfl

theorem C4_counterexample_24001_does_not_trigger :
    shouldCompact 6000 [aMsg 24001] = false := by
  simp only [shouldCompact, aMsg, string_length_mk, List.length_replicate,
    List.map_cons, List.map_nil, List.sum_cons, List.sum_nil]
  decide

/-- C4 (amended): `should_compact` returns true exactly when the total
content character count integer-divided by 4 strictly exceeds the
threshold; with threshold 6000 a single message of 24000 characters does
not trigger compaction, nor do 24001 through 24003 characters (they still
estimate to 6000 tokens); the smallest triggering single message has 24004
characters. -/
theorem C4_amended_threshold_boundary :
    (∀ (threshold : Int) (messages : List Msg),
      shouldCompact threshold messages = true
        ↔ (((messages.map (fun m => m.content.length)).sum : Int) / 4
            > threshold))
    ∧ shouldCompact 6000 [aMsg 24000] = false
    ∧ shouldCompact 6000 [aMsg 24001] = false
    ∧ shouldCompact 6000 [aMsg 24003] = false
    ∧ shouldCompact 6000 [aMsg 24004] = true := by
  refine ⟨fun threshold messages => by simp [shouldCompact], ?_, ?_, ?_, ?_⟩ <;>
    · simp only [shouldCompact, aMsg, string_length_mk, List.length_replicate,
        List.map_cons, List.map_nil, List.sum_cons, List.sum_nil]
      decide

/-- C9 counterexample: with `keep_recent = 0` and a nonempty list, Python
`messages[-0:]` is the whole list, so `compact_with_summary` returns the
summary message followed by all input messages, not the summary alone as
the claim ("exactly the last keep_recent input messages") requires. -/
theorem C9_counterexample_keep_recent_zero :
    compactWithSummary [{ role := "user", content := "hi" }] "s" 0
        = [mkSummaryMsg "s", { role := "user", content := "hi" }]
    ∧ compactWithSummary [{ role := "user", content := "hi" }] "s" 0
        ≠ [mkSummaryMsg "s"] := by
  constructor
  · rfl
  · decide

/-- C9 (amended): for `keep_recent ≥ 1`, when the list is longer than
`keep_recent`, `compact_with_summary` returns one system message whose
content is `[Conversation Summary]\n\n` followed by the summary, followed
by exactly the last `keep_recent` input messages, by value and in order (a
suffix of the input); when the list has at most `keep_recent` messages it
returns the input unchanged (for any `keep_recent`).  At
`keep_recent = 0` the whole input is retained after the summary message. -/
theorem C9_amended_splice_summary_plus_tail (messages : List Msg)
    (summary : String) (keepRecent : Nat) :
    (messages.length ≤ keepRecent →
      compactWithSummary messages summary keepRecent = messages)
    ∧ (1 ≤ keepRecent → keepRecent < messages.length →
        compactWithSummary messages summary keepRecent
            = mkSummaryMsg summary
                :: messages.drop (messages.length - keepRecent)
          ∧ (messages.drop (messages.length - keepRecent)).length = keepRecent
          ∧ messages.drop (messages.length - keepRecent) <:+ messages) := by
  constructor
  · intro h
    rw [compactWithSummary, if_pos h]
  · intro h1 h2
    refine ⟨?_, by simp [List.length_drop]; omega, List.drop_suffix _ _⟩
    rw [compactWithSummary, if_neg (by omega), pyTailSlice,
      if_neg (by omega)]

/-- Message list for the C9 witness. -/
def c9msgs : List Msg :=
  [{ role := "user", content := "a" },
   { role := "assistant", content := "b" },
   { role := "user", content := "c" }]

theorem C9_amended_splice_summary_plus_tail_witness :
    (([{ role := "user", content := "a" }] : List Msg).length ≤ 2
      ∧ compactWithSummary [{ role := "user", content := "a" }] "s" 2
          = [{ role := "user", content := "a" }])
    ∧ (1 ≤ 2 ∧ 2 < c9msgs.length
      ∧ compactWithSummary c9msgs "s" 2
          = mkSummaryMsg "s" :: c9msgs.drop (c9msgs.length - 2)) :=
  ⟨⟨by decide,
    (C9_amended_splice_summary_plus_tail
      [{ role := "user", content := "a" }] "s" 2).1 (by decide)⟩,
   ⟨by decide, by decide,
    ((C9_amended_splice_summary_plus_tail c9msgs "s" 2).2
      (by decide) (by decide)).1⟩⟩

/-- Compaction metadata dict set by the memory middleware. -/
structure CompMeta where
  compactedCount : Int
  keptCount : Nat
  originalCount : Nat
  newCount : Nat
deriving DecidableEq, Repr

/-- Values stored in the agent state dictionary. -/
inductive SVal where
  | vMsgs : List Msg → SVal
  | vStr : String → SVal
  | vInt : Int → SVal
  | vBool : Bool → SVal
  | vMeta : CompMeta → SVal
deriving DecidableEq, Repr

/-- The agent state dictionary, embedded as an association list with
last-binding-wins lookup; `state[k] = v` appends a binding, which under
this lookup is observationally the same update a Python dict performs. -/
abbrev AgentState : Type := List (String × SVal)

/-- `state.get(k)` (last binding wins). -/
def stGet : AgentState → String → Option SVal
  | [], _ => none
  | (k2, v) :: tl, k =>
    match stGet tl k with
    | some r => some r
    | none => if k2 == k then some v else none

/-- `k in state`. -/
def stHas (st : AgentState) (k : String) : Bool :=
  st.any (fun p => p.1 == k)

/-- `state[k] = v`. -/
def stSet (st : AgentState) (k : String) (v : SVal) : AgentState :=
  st ++ [(k, v)]

/-- Python truthiness of an optional state value. -/
def pyTruthy : Option SVal → Bool
  | none => false
  | some (SVal.vStr s) => !(s == "")
  | some (SVal.vInt n) => !(n == 0)
  | some (SVal.vBool b) => b
  | some (SVal.vMsgs l) => !l.isEmpty
  | some (SVal.vMeta _) => true

/-- Python `str(...)`/f-string rendering of a state value (the stages only
ever interpolate strings, ints and booleans). -/
def pyStr : SVal → String
  | SVal.vStr s => s
  | SVal.vInt n => toString n
  | SVal.vBool b => if b then "True" else "False"
  | SVal.vMsgs _ => "[...]"
  | SVal.vMeta _ => "\x7b...\x7d"

/-- The messages held in a state, when the `messages` key holds a message
list (otherwise `[]`). -/
def msgsOf (st : AgentState) : List Msg :=
  match stGet st "messages" with
  | some (SVal.vMsgs l) => l
  | _ => []

theorem stGet_append (st1 st2 : AgentState) (k : String) :
    stGet (st1 ++ st2) k
      = match stGet st2 k with
        | some r => some r
        | none => stGet st1 k := by
  induction st1 with
  | nil =>
    rw [List.nil_append]
    cases stGet st2 k <;> rfl
  | cons p tl ih =>
    obtain ⟨k2, v⟩ := p
    rw [List.cons_append, stGet, ih, stGet]
    cases stGet st2 k <;> cases stGet tl k <;> rfl

theorem stGet_single_self (k : String) (v : SVal) :
    stGet [(k, v)] k = some v := by
  simp [stGet]

theorem stGet_single_other (k k2 : String) (v : SVal) (hne : ¬ k = k2) :
    stGet [(k, v)] k2 = none := by
  simp [stGet, hne]

theorem stGet_stSet_self (st : AgentState) (k : String) (v : SVal) :
    stGet (stSet st k v) k = some v := by
  rw [stSet, stGet_append, stGet_single_self]

theorem stGet_stSet_other (st : AgentState) (k k2 : String) (v : SVal)
    (hne : ¬ k = k2) : stGet (stSet st k v) k2 = stGet st k2 := by
  rw [stSet, stGet_append, stGet_single_other k k2 v hne]

theorem stHas_stSet_self (st : AgentState) (k : String) (v : SVal) :
    stHas (stSet st k v) k = true := by
  rw [stSet, stHas, List.any_append]
  simp [stHas]

theorem stHas_stSet_other (st : AgentState) (k k2 : String) (v : SVal)
    (hne : ¬ k = k2) : stHas (stSet st k v) k2 = stHas st k2 := by
  rw [stSet, stHas, List.any_append, stHas]
  simp [hne]

/-- ASCII lowering, modelling Python `str.lower()` on the ASCII fragment
the middleware handles. -/
def pyLower (s : String) : String := String.mk (s.data.map Char.toLower)

/-- Regex `\w` (ASCII fragment): letters, digits, underscore. -/
def isWordChar (c : Char) : Bool := c.isAlphanum || c = '_'

/-- Tokens of the small regex fragment used by `DANGEROUS_PATTERNS`:
literal characters, character classes `[...]`, `\s+`, `.*` (which does not
cross a newline without `re.DOTALL`), and the word-boundary assertion
`\b`.  The one alternation `(main|master)` is expanded into two
alternative token lists at the pattern table. -/
inductive RTok where
  | lit : Char → RTok
  | cls : List Char → RTok
  | wsPlus : RTok
  | dotStar : RTok
  | bAssert : RTok
deriving DecidableEq, Repr

/-- A literal-string token run. -/
def lits (s : String) : List RTok := s.data.map RTok.lit

/-- `\s+ rest`: consume one or more whitespace characters, trying the
continuation `k` (the match of the rest of the pattern) after each. -/
def tryWs (k : Option Char → List Char → Bool) : Option Char → List Char → Bool
  | _, [] => false
  | _, c :: cs =>
      isPyWsChar c && (k (some c) cs || tryWs k (some c) cs)

/-- `.* rest`: try the continuation `k` after every (possibly empty)
run of non-newline characters — `.` does not cross a newline without
`re.DOTALL`. -/
def tryStar (k : Option Char → List Char → Bool) : Option Char → List Char → Bool
  | prev, [] => k prev []
  | prev, c :: cs =>
      k prev (c :: cs) || (!(c == '\n') && tryStar k (some c) cs)

/-- Match a token sequence against the start of `cs`; `prev` is the
character just before `cs` in the surrounding text (for `\b`). -/
def matchSeq : List RTok → Option Char → List Char → Bool
  | [], _, _ => true
  | RTok.lit _ :: _, _, [] => false
  | RTok.lit a :: ps, _, c :: cs =>
      c == a && matchSeq ps (some c) cs
  | RTok.cls _ :: _, _, [] => false
  | RTok.cls l :: ps, _, c :: cs =>
      l.contains c && matchSeq ps (some c) cs
  | RTok.wsPlus :: ps, prev, cs =>
      tryWs (fun prev2 cs2 => matchSeq ps prev2 cs2) prev cs
  | RTok.dotStar :: ps, prev, cs =>
      tryStar (fun prev2 cs2 => matchSeq ps prev2 cs2) prev cs
  | RTok.bAssert :: ps, prev, cs =>
      let prevW := match prev with | some c => isWordChar c | none => false
      let nextW := match cs with | c :: _ => isWordChar c | [] => false
      (prevW != nextW) && matchSeq ps prev cs

/-- `re.search`: try the match at every start position. -/
def reSearchAux (ps : List RTok) : Option Char → List Char → Bool
  | prev, [] => matchSeq ps prev []
  | prev, c :: cs =>
      matchSeq ps prev (c :: cs) || reSearchAux ps (some c) cs

/-- `re.search(pattern, s)` (as a Boolean). -/
def reSearch (ps : List RTok) (s : String) : Bool := reSearchAux ps none s.data

/-- `DANGEROUS_PATTERNS` from git_safety_middleware.py, in order.  Each
entry is a set of alternative token lists (the `(main|master)` group is
expanded) with its description.  The text searched is already lowered, so
`re.IGNORECASE` reduces to matching the lowercase pattern letters; the
class `[fFdDxX]` keeps both cases. -/
def dangerousPatterns : List (List (List RTok) × String) :=
  [([lits "git" ++ [RTok.wsPlus] ++ lits "push" ++ [RTok.wsPlus, RTok.dotStar]
      ++ lits "--force"], "Force push detected"),
   ([lits "force" ++ [RTok.wsPlus] ++ lits "push"], "Force push detected"),
   ([lits "git" ++ [RTok.wsPlus] ++ lits "reset" ++ [RTok.wsPlus]
      ++ lits "--hard"], "Hard reset detected"),
   ([lits "git" ++ [RTok.wsPlus] ++ lits "clean" ++ [RTok.wsPlus, RTok.lit '-',
      RTok.cls ['f', 'F', 'd', 'D', 'x', 'X']]], "Git clean detected"),
   ([lits "git" ++ [RTok.wsPlus] ++ lits "push" ++ [RTok.wsPlus, RTok.dotStar,
      RTok.bAssert] ++ lits "main" ++ [RTok.bAssert],
     lits "git" ++ [RTok.wsPlus] ++ lits "push" ++ [RTok.wsPlus, RTok.dotStar,
      RTok.bAssert] ++ lits "master" ++ [RTok.bAssert]],
     "Push to main/master branch"),
   ([lits "push" ++ [RTok.dotStar, RTok.bAssert] ++ lits "main"
      ++ [RTok.bAssert],
     lits "push" ++ [RTok.dotStar, RTok.bAssert] ++ lits "master"
      ++ [RTok.bAssert]], "Push to main/master branch")]

/-- The `for pattern, description ... break` loop: description of the
first dangerous pattern found in the (lowered) content, if any. -/
def findDanger (content : String) : Option String :=
  (dangerousPatterns.find?
    (fun p => p.1.any (fun alt => reSearch alt content))).map Prod.snd

/-- `logging_middleware`: its whole body is observational I/O wrapped in
`try/except Exception` and it returns the state it received, so it embeds
as the identity stage. -/
def loggingMw (st : AgentState) : Except String AgentState := Except.ok st

/-- `audit_middleware`: likewise fully wrapped in `try/except Exception`
and observational; the identity stage. -/
def auditMw (st : AgentState) : Except String AgentState := Except.ok st

/-- `git_safety_middleware(enforce)`: on an absent or empty messages list,
return the state; otherwise lower the last message content, search the
dangerous patterns in order, and on the first hit append a warning system
message (also setting `git_operation_blocked` in enforce mode).  A truthy
non-list `messages` value makes the Python body raise when indexing it. -/
def gitSafetyMw (enforce : Bool) (st : AgentState) : Except String AgentState :=
  let messages := stGet st "messages"
  if pyTruthy messages = false then Except.ok st
  else
    match messages with
    | some (SVal.vMsgs ms) =>
        let content := pyLower (match ms.getLast? with
          | some m => m.content
          | none => "")
        (match findDanger content with
         | none => Except.ok st
         | some description =>
             if enforce then
               let warningMsg := "⚠️  WARNING: " ++ description
                 ++ ". This operation is blocked for safety."
               let st1 := stSet st "messages"
                 (SVal.vMsgs (ms ++ [{ role := "system", content := warningMsg }]))
               Except.ok (stSet st1 "git_operation_blocked" (SVal.vBool true))
             else
               let warningMsg := "⚠️  WARNING: " ++ description
                 ++ ". Please confirm this is intentional."
               Except.ok (stSet st "messages"
                 (SVal.vMsgs (ms ++ [{ role := "system", content := warningMsg }]))))
    | _ => Except.error "TypeError: messages is not a message list"

/-- `os.path.dirname` (posix): everything before the final `/`, with
trailing slashes stripped unless the head is all slashes. -/
def dirnamePy (p : String) : String :=
  let cs := p.data
  let head := (cs.reverse.dropWhile (fun c => !(c == '/'))).reverse
  if head ≠ [] ∧ ¬ head.all (fun c => c == '/') then
    String.mk (head.reverse.dropWhile (fun c => c == '/')).reverse
  else String.mk head

/-- Characters admitted by the class in the recovery regex
`/[\w/\-\.]+`. -/
def pathClassChar (c : Char) : Bool :=
  isWordChar c || c = '/' || c = '-' || c = '.'

/-- `re.search(r"/[\w/\-\.]+", s)`: the leftmost `/` followed by at least
one class character, extended greedily. -/
def findPathRun : List Char → Option (List Char)
  | [] => none
  | '/' :: tl =>
      (match tl.takeWhile pathClassChar with
       | [] => findPathRun tl
       | run => some ('/' :: run))
  | _ :: tl => findPathRun tl

/-- `state.get("retry_count", 0) + 1`\x27s left operand: an int (a bool
counts as one); any other present value raises `TypeError` when 1 is
added. -/
def getRetryCount : Option SVal → Except String Int
  | none => Except.ok 0
  | some (SVal.vInt n) => Except.ok n
  | some (SVal.vBool b) => Except.ok (if b then 1 else 0)
  | some _ => Except.error "TypeError: unsupported operand type(s) for +"

/-- `state["messages"].append(m)`: raises `KeyError` when the key is
absent and an attribute error when the value is not a list. -/
def appendMsg (st : AgentState) (m : Msg) : Except String AgentState :=
  match stGet st "messages" with
  | some (SVal.vMsgs l) => Except.ok (stSet st "messages" (SVal.vMsgs (l ++ [m])))
  | some _ => Except.error "AttributeError: append"
  | none => Except.error "KeyError: messages"

/-- The recovery-guidance message body built by the non-terminal branch of
`error_recovery_middleware`. -/
def recoveryMessageFor (err : SVal) (retryCount : Int) (maxRetries : Nat) :
    String :=
  let errorStr := pyLower (pyStr err)
  let base := "⚠️  An error occurred: " ++ pyStr err ++ ". "
  if strContains errorStr "parent directory does not exist"
      || strContains errorStr "no such file or directory" then
    match findPathRun (pyStr err).data with
    | some run =>
        base ++ "\n\n💡 TIP: The parent directory \x27"
          ++ dirnamePy (String.mk run)
          ++ "\x27 doesn\x27t exist. Use the create_directory or mkdir tool to create it first, then retry writing the file."
    | none =>
        base ++ "\n\n💡 TIP: Create the parent directory first using create_directory or mkdir, then retry writing the file."
  else if strContains errorStr "access denied"
      || strContains errorStr "permission denied" then
    base ++ "\n\n💡 TIP: Check file permissions or verify the path is within the allowed workspace."
  else if strContains errorStr "outside allowed directories" then
    base ++ "\n\n💡 TIP: The path is outside the workspace. All file operations must be within the workspace directory. Use relative paths or paths starting with the workspace root."
  else
    base ++ "Attempting recovery (attempt " ++ toString retryCount ++ "/"
      ++ toString maxRetries ++ ")..."

/-- `error_recovery_middleware(max_retries, add_recovery_message)`: a
falsy `error` value is a no-op; otherwise the retry count is bumped and
stored, and either the terminal max-retries message or a recovery-guidance
message is appended (the append raises `KeyError` when `messages` is
absent — nothing in the body catches it). -/
def errorRecoveryMw (maxRetries : Nat) (addRecoveryMessage : Bool)
    (st : AgentState) : Except String AgentState :=
  let error := stGet st "error"
  if pyTruthy error = false then Except.ok st
  else
    match error with
    | none => Except.ok st
    | some err =>
      match getRetryCount (stGet st "retry_count") with
      | Except.error e => Except.error e
      | Except.ok rc0 =>
        let retryCount := rc0 + 1
        let st1 := stSet st "retry_count" (SVal.vInt retryCount)
        if retryCount ≥ (maxRetries : Int) then
          let st2 := stSet st1 "max_retries_reached" (SVal.vBool true)
          if addRecoveryMessage then
            appendMsg st2
              { role := "system",
                content := "⚠️  Maximum retry attempts (" ++ toString maxRetries
                  ++ ") reached. Error: " ++ pyStr err
                  ++ ". Please try a different approach or check the error details." }
          else Except.ok st2
        else
          if addRecoveryMessage then
            appendMsg st1
              { role := "system",
                content := recoveryMessageFor err retryCount maxRetries }
          else Except.ok st1

/-- `memory_middleware(model_selector, threshold, keep_recent)`: an absent
or empty messages list is a no-op; `should_compact` runs outside the
`try`, so a truthy non-list value raises; inside the `try`, a raised
compaction exception is swallowed and the state returned as received,
while success stores the compacted list and the `compaction_metadata`
dict. -/
def memoryMw (getSummarizer : Except String (String → Except String String))
    (threshold : Int) (keepRecent : Nat) (st : AgentState) :
    Except String AgentState :=
  let messages := stGet st "messages"
  if pyTruthy messages = false then Except.ok st
  else
    match messages with
    | some (SVal.vMsgs ms) =>
        if shouldCompact threshold ms then
          match compactConversation getSummarizer ms keepRecent with
          | Except.error _ => Except.ok st
          | Except.ok summary =>
              let compactedMessages := compactWithSummary ms summary keepRecent
              let st1 := stSet st "messages" (SVal.vMsgs compactedMessages)
              Except.ok (stSet st1 "compaction_metadata"
                (SVal.vMeta
                  { compactedCount := (ms.length : Int) - (keepRecent : Int),
                    keptCount := keepRecent,
                    originalCount := ms.length,
                    newCount := compactedMessages.length }))
        else Except.ok st
    | _ => Except.error "AttributeError: messages is not a message list"

theorem msgsOf_eq_of_get (st : AgentState) (ms : List Msg)
    (h : stGet st "messages" = some (SVal.vMsgs ms)) : msgsOf st = ms := by
  simp [msgsOf, h]

theorem msgsOf_stSet_messages (st : AgentState) (l : List Msg) :
    msgsOf (stSet st "messages" (SVal.vMsgs l)) = l := by
  simp [msgsOf, stGet_stSet_self]

theorem msgsOf_stSet_other (st : AgentState) (k : String) (v : SVal)
    (h : ¬ k = "messages") : msgsOf (stSet st k v) = msgsOf st := by
  simp [msgsOf, stGet_stSet_other st k "messages" v h]

theorem appendMsg_ok (st st' : AgentState) (m : Msg)
    (h : appendMsg st m = Except.ok st') :
    msgsOf st' = msgsOf st ++ [m] := by
  rw [appendMsg] at h
  split at h
  · rename_i l heq
    cases h
    rw [msgsOf_stSet_messages, msgsOf_eq_of_get st l heq]
  · exact Except.noConfusion h
  · exact Except.noConfusion h

theorem gitSafetyMw_prefix (e : Bool) (st st' : AgentState)
    (h : gitSafetyMw e st = Except.ok st') : msgsOf st <+: msgsOf st' := by
  simp only [gitSafetyMw] at h
  split at h
  · cases h; exact List.prefix_rfl
  · split at h
    · rename_i ms heq
      split at h
      · cases h; exact List.prefix_rfl
      · split at h
        · cases h
          rw [msgsOf_stSet_other _ _ _ (by decide), msgsOf_stSet_messages,
            msgsOf_eq_of_get st ms heq]
          exact List.prefix_append _ _
        · cases h
          rw [msgsOf_stSet_messages, msgsOf_eq_of_get st ms heq]
          exact List.prefix_append _ _
    · exact Except.noConfusion h

theorem errorRecoveryMw_prefix (mr : Nat) (arm : Bool) (st st' : AgentState)
    (h : errorRecoveryMw mr arm st = Except.ok st') :
    msgsOf st <+: msgsOf st' := by
  simp only [errorRecoveryMw] at h
  split at h
  · cases h; exact List.prefix_rfl
  · split at h
    · cases h; exact List.prefix_rfl
    · split at h
      · exact Except.noConfusion h
      · split at h
        · split at h
          · have hm := appendMsg_ok _ _ _ h
            rw [hm, msgsOf_stSet_other _ _ _ (by decide),
              msgsOf_stSet_other _ _ _ (by decide)]
            exact List.prefix_append _ _
          · cases h
            rw [msgsOf_stSet_other _ _ _ (by decide),
              msgsOf_stSet_other _ _ _ (by decide)]
        · split at h
          · have hm := appendMsg_ok _ _ _ h
            rw [hm, msgsOf_stSet_other _ _ _ (by decide)]
            exact List.prefix_append _ _
          · cases h
            rw [msgsOf_stSet_other _ _ _ (by decide)]

theorem memoryMw_no_compact
    (g : Except String (String → Except String String)) (t : Int) (k : Nat)
    (st : AgentState) (ms : List Msg)
    (hget : stGet st "messages" = some (SVal.vMsgs ms))
    (hsc : shouldCompact t ms = false) :
    memoryMw g t k st = Except.ok st := by
  simp only [memoryMw, hget]
  by_cases hemp : pyTruthy (some (SVal.vMsgs ms)) = false
  · rw [if_pos hemp]
  · rw [if_neg hemp]
    simp [hsc]

theorem memoryMw_messages_absent
    (g : Except String (String → Except String String)) (t : Int) (k : Nat)
    (st : AgentState) (h : stGet st "messages" = none) :
    memoryMw g t k st = Except.ok st := by
  simp [memoryMw, h, pyTruthy]

theorem gitSafetyMw_messages_absent (e : Bool) (st : AgentState)
    (h : stGet st "messages" = none) : gitSafetyMw e st = Except.ok st := by
  simp [gitSafetyMw, h, pyTruthy]

/-- Messages of the C3 counterexample state. -/
def c3m1 : Msg := { role := "user", content := "aaaaaaaa" }

/-- Second message of the C3 counterexample state. -/
def c3m2 : Msg := { role := "assistant", content := "bbbbbbbb" }

/-- The C3 counterexample state: two messages of 8 characters each, so the
estimate 16 / 4 = 4 exceeds a threshold of 1. -/
def c3st : AgentState := [("messages", SVal.vMsgs [c3m1, c3m2])]

/-- C3 counterexample: the memory-compaction stage, when it triggers and
succeeds, replaces the message history by a fresh summary message followed
by the last `keep_recent` entries — the input history is not a prefix of
the output, so the loop is not append-only. -/
theorem C3_counterexample_memory_stage_rewrites_history :
    ∃ st', memoryMw (Except.ok (fun _ => Except.ok "S")) 1 1 c3st
          = Except.ok st'
      ∧ msgsOf st' = [mkSummaryMsg "S", c3m2]
      ∧ ¬ (msgsOf c3st <+: msgsOf st') :=
  ⟨_, rfl, by decide, by decide⟩

/-- C3 (amended): the logging and audit stages return the state unchanged;
the git-safety and error-recovery stages, whenever they return normally,
only append to the messages list (the input history is a prefix of the
output); and the memory stage leaves the state untouched when compaction
is not triggered — but a triggered, successful compaction rewrites the
history, so strict append-only holds only outside that case. -/
theorem C3_amended_append_only_except_compaction :
    (∀ st, loggingMw st = Except.ok st ∧ auditMw st = Except.ok st)
    ∧ (∀ e st st', gitSafetyMw e st = Except.ok st' →
        msgsOf st <+: msgsOf st')
    ∧ (∀ mr arm st st', errorRecoveryMw mr arm st = Except.ok st' →
        msgsOf st <+: msgsOf st')
    ∧ (∀ g t k st ms, stGet st "messages" = some (SVal.vMsgs ms) →
        shouldCompact t ms = false → memoryMw g t k st = Except.ok st) :=
  ⟨fun _st => ⟨rfl, rfl⟩, gitSafetyMw_prefix, errorRecoveryMw_prefix,
   fun g t k st ms hget hsc => memoryMw_no_compact g t k st ms hget hsc⟩

/-- A state whose last message mentions a force push, for the C3
witness. -/
def c3wst : AgentState :=
  [("messages", SVal.vMsgs [{ role := "user", content := "git push --force" }])]

theorem C3_amended_append_only_except_compaction_witness :
    msgsOf c3wst
      <+: msgsOf (stSet c3wst "messages"
        (SVal.vMsgs [{ role := "user", content := "git push --force" },
          { role := "system",
            content := "⚠️  WARNING: Force push detected. Please confirm this is intentional." }])) :=
  C3_amended_append_only_except_compaction.2.1 false c3wst _ (by rfl)

/-- C8 counterexample: the error-recovery stage applied to a state holding
a truthy `error` but no `messages` key raises (`state["messages"].append`
is a `KeyError`), so "absent well-known keys produce a no-op, never a
crash" fails. -/
theorem C8_counterexample_error_without_messages_raises :
    (errorRecoveryMw 3 true [("error", SVal.vStr "boom")]).isOk = false := by
  decide

/-- C8 (amended): on the minimal state holding only an empty messages
list, every stage returns the state unchanged without raising; the logging
and audit stages never raise on any state; and the memory and git-safety
stages are no-ops when the `messages` key is absent — but the
error-recovery stage can raise when a truthy `error` is present while
`messages` is absent. -/
theorem C8_amended_minimal_state_no_raise :
    (loggingMw [("messages", SVal.vMsgs [])]
        = Except.ok [("messages", SVal.vMsgs [])]
      ∧ auditMw [("messages", SVal.vMsgs [])]
        = Except.ok [("messages", SVal.vMsgs [])]
      ∧ gitSafetyMw false [("messages", SVal.vMsgs [])]
        = Except.ok [("messages", SVal.vMsgs [])]
      ∧ gitSafetyMw true [("messages", SVal.vMsgs [])]
        = Except.ok [("messages", SVal.vMsgs [])]
      ∧ errorRecoveryMw 3 true [("messages", SVal.vMsgs [])]
        = Except.ok [("messages", SVal.vMsgs [])]
      ∧ memoryMw (Except.ok (fun _ => Except.ok "S")) 6000 10
          [("messages", SVal.vMsgs [])]
        = Except.ok [("messages", SVal.vMsgs [])])
    ∧ (∀ st, (loggingMw st).isOk = true ∧ (auditMw st).isOk = true)
    ∧ (∀ g t k st, stGet st "messages" = none →
        memoryMw g t k st = Except.ok st)
    ∧ (∀ e st, stGet st "messages" = none →
        gitSafetyMw e st = Except.ok st) :=
  ⟨⟨rfl, rfl, rfl, rfl, rfl, rfl⟩, fun _st => ⟨rfl, rfl⟩,
   fun g t k st h => memoryMw_messages_absent g t k st h,
   fun e st h => gitSafetyMw_messages_absent e st h⟩

theorem C8_amended_minimal_state_no_raise_witness :
    memoryMw (Except.ok (fun _ => Except.ok "S")) 6000 10
        [("error", SVal.vStr "boom")]
      = Except.ok [("error", SVal.vStr "boom")] :=
  C8_amended_minimal_state_no_raise.2.2.1
    (Except.ok (fun _ => Except.ok "S")) 6000 10
    [("error", SVal.vStr "boom")] (by decide)

/-- The C10 counterexample state: a single 8-character message, so the
estimate 2 exceeds a threshold of 1 while the list is shorter than
`keep_recent = 2`. -/
def c10st : AgentState :=
  [("messages", SVal.vMsgs [{ role := "user", content := "aaaaaaaa" }])]

/-- C10 counterexample: with one message above the threshold and
`keep_recent = 2`, compaction triggers, `compact_with_summary` is a no-op
(the list is not longer than `keep_recent`), yet `compaction_metadata` is
still written (with a negative `compacted_count` of 1 − 2 = −1) — so
metadata presence does not coincide with the messages list having been
replaced. -/
theorem C10_counterexample_metadata_without_replacement :
    ∃ st', memoryMw (Except.ok (fun _ => Except.ok "S")) 1 2 c10st
          = Except.ok st'
      ∧ msgsOf st' = msgsOf c10st
      ∧ stGet st' "compaction_metadata"
          = some (SVal.vMeta
              { compactedCount := -1, keptCount := 2,
                originalCount := 1, newCount := 1 }) :=
  ⟨_, rfl, by decide, by decide⟩

/-- C10 (amended): the memory middleware is atomic on failure — if the
compaction step raises, the state is returned exactly as received, with no
`compaction_metadata` key added; and on states without pre-existing
metadata, `compaction_metadata` is present in the result exactly when the
messages list is nonempty, `should_compact` holds, and
`compact_conversation` returned normally — a condition that also covers
runs in which the stored list equals the original one. -/
theorem C10_amended_atomic_and_metadata_iff_success :
    (∀ g t k st ms e, stGet st "messages" = some (SVal.vMsgs ms) →
        compactConversation g ms k = Except.error e →
        memoryMw g t k st = Except.ok st)
    ∧ (∀ g t k st ms st', stGet st "messages" = some (SVal.vMsgs ms) →
        stHas st "compaction_metadata" = false →
        memoryMw g t k st = Except.ok st' →
        (stHas st' "compaction_metadata" = true
          ↔ ms ≠ [] ∧ shouldCompact t ms = true
              ∧ (compactConversation g ms k).isOk = true)) := by
  constructor
  · intro g t k st ms e hget herr
    simp only [memoryMw, hget]
    by_cases hemp : pyTruthy (some (SVal.vMsgs ms)) = false
    · rw [if_pos hemp]
    · rw [if_neg hemp]
      by_cases hsc : shouldCompact t ms = true
      · simp [hsc, herr]
      · simp only [Bool.not_eq_true] at hsc
        simp [hsc]
  · intro g t k st ms st' hget hmeta h
    simp only [memoryMw, hget] at h
    by_cases hemp : pyTruthy (some (SVal.vMsgs ms)) = false
    · rw [if_pos hemp] at h
      cases h
      simp only [pyTruthy] at hemp
      have hnil : ms = [] := by
        cases ms with
        | nil => rfl
        | cons a l => simp at hemp
      simp [hmeta, hnil]
    · rw [if_neg hemp] at h
      simp only [pyTruthy] at hemp
      have hne : ms ≠ [] := by
        cases ms with
        | nil => simp at hemp
        | cons a l => simp
      clear hemp
      rename' hne => hemp
      by_cases hsc : shouldCompact t ms = true
      · simp only [hsc, if_true] at h
        cases hcc : compactConversation g ms k with
        | error e =>
          rw [hcc] at h
          cases h
          simp [hmeta, hcc, Except.isOk, Except.toBool]
        | ok summary =>
          rw [hcc] at h
          simp only [Except.ok.injEq] at h
          subst h
          simp [stHas_stSet_self, hemp, hsc, hcc, Except.isOk, Except.toBool]
      · simp only [Bool.not_eq_true] at hsc
        simp only [hsc, Bool.false_eq_true, if_false] at h
        cases h
        simp [hmeta, hsc]

theorem C10_amended_atomic_and_metadata_iff_success_witness :
    memoryMw (Except.error "model selector failed") 1 1 c3st
      = Except.ok c3st :=
  C10_amended_atomic_and_metadata_iff_success.1
    (Except.error "model selector failed") 1 1 c3st [c3m1, c3m2]
    "model selector failed" (by rfl) (by rfl)
